import Mathlib

/-!
Verification of the SweepstacX scan engine against its specification.

The definitions below are a shallow embedding of the JavaScript source:

* the unused-import detector of `src/commands/scan.js` (`detectUnusedImports`,
  `topLevelCommaIndex`, `isUsed`, and the import-statement regular expression
  executed in a `gm` exec loop),
* the TypeScript variant `detectUnusedTypeScriptImports` of
  `src/analyzers/typescript.js` (same machinery plus an optional `type` group),
* the dead-file analyzer of `src/analyzers/dead-files.js` (`extractImports`,
  `resolveImportPath`, `findEntryPoints`, `detectDeadFiles` with its
  breadth-first traversal),
* the cache utilities of `src/utils/cache.js` (`getCache`, `setCache`,
  `getFileCacheKey`), and
* the pure aggregation core of `runScan` in `src/commands/scan.js`.

Strings are processed as `List Char`.  The JavaScript regular expressions are
embedded as hand-written matchers implementing exactly the backtracking
semantics of the concrete patterns used by the source; where a greedy
quantifier is followed by a literal that cannot overlap the quantified class,
the matcher consumes the maximal run (this is extensionally identical to the
backtracking engine, as the shorter candidate runs would place a class
character where the literal is required).  File-system reads are modelled as
explicit content maps; `Date.now()` as an integer parameter.
-/

namespace SweepstacX

abbrev Chars := List Char

/-- ASCII fragment of the JavaScript regex class `\s` (sufficient for the
character values the scanner manipulates). -/
def isWS (c : Char) : Bool :=
  c = ' ' || c = '\t' || c = '\n' || c = '\r' || c = '\x0b' || c = '\x0c'

/-- JavaScript regex class `\w`, i.e. `[A-Za-z0-9_]`. -/
def isWordChar (c : Char) : Bool :=
  c.isAlpha || c.isDigit || c = '_'

/-- Character class `['"]` used by the import patterns. -/
def isQuote (c : Char) : Bool :=
  c = '\'' || c = '"'

/-- Identifier start class `[A-Za-z_$]`. -/
def isIdStart (c : Char) : Bool :=
  c.isAlpha || c = '_' || c = '$'

/-- Identifier continuation class `[\w$]`. -/
def isIdChar (c : Char) : Bool :=
  isWordChar c || c = '$'

/-- Length of the maximal prefix of whitespace characters (the possessive
reading of `\s*`). -/
def wsRun : Chars → Nat
  | [] => 0
  | c :: rest => if isWS c then wsRun rest + 1 else 0

/-- Length of the maximal prefix drawn from a character class. -/
def classRun (p : Char → Bool) : Chars → Nat
  | [] => 0
  | c :: rest => if p c then classRun p rest + 1 else 0

/-- Matcher for `['"]([^'"]+)['"]` at the head of the input: an opening quote,
a non-empty maximal run of non-quote characters (no shorter run can be
followed by the required closing quote), and a closing quote.  Returns the
consumed length and the captured inner characters. -/
def matchQuotedG (s : Chars) : Option (Nat × Chars) :=
  match s with
  | c :: rest =>
    if isQuote c then
      let r := rest.takeWhile (fun d => !isQuote d)
      if r = [] then none
      else
        match rest.drop r.length with
        | d :: _ => if isQuote d then some (r.length + 2, r) else none
        | [] => none
    else none
  | [] => none

/-- Matcher for `\s+from\s+['"]([^'"]+)['"]` at the head of the input.  Both
`\s+` occurrences are followed by non-whitespace literals, so the maximal
whitespace runs are the only viable candidates. -/
def matchFromClauseG (s : Chars) : Option (Nat × Chars) :=
  let j := wsRun s
  if j = 0 then none
  else
    let s1 := s.drop j
    if s1.take 4 = ['f', 'r', 'o', 'm'] then
      let s2 := s1.drop 4
      let k := wsRun s2
      if k = 0 then none
      else
        match matchQuotedG (s2.drop k) with
        | some (q, spec) => some (j + 4 + k + q, spec)
        | none => none
    else none

/-- Lazy search for the continuation `\s+from\s+['"][^'"]+['"]` after the lazy
group `([\s\S]*?)`: the group takes the least number `k` of characters for
which the continuation matches.  Returns the group length and the
continuation length. -/
def findLazy : Chars → Option (Nat × Nat)
  | [] => none
  | c :: t =>
    match matchFromClauseG (c :: t) with
    | some (n, _) => some (0, n)
    | none =>
      match findLazy t with
      | some (k, n) => some (k + 1, n)
      | none => none

/-- Negative lookahead `(?!['"])` followed by the lazy group and its
continuation. -/
def lookLazy (s : Chars) : Option (Nat × Nat) :=
  match s with
  | c :: _ => if isQuote c then none else findLazy s
  | [] => none

/-- Backtracking over the whitespace lengths of `\s+` after the literal
`type`, longest first (candidate `c + 1` down to `1`), each followed by the
lookahead and lazy group.  Returns the chosen whitespace length together with
the group and continuation lengths. -/
def typeWS (s4 : Chars) : Nat → Option (Nat × Nat × Nat)
  | 0 => none
  | c + 1 =>
    match lookLazy (s4.drop (c + 1)) with
    | some (k, n) => some (c + 1, k, n)
    | none => typeWS s4 c

/-- Optional group `(?:type\s+)?` of the TypeScript import pattern: the
present alternative is preferred, falling back to the absent one.  Returns
the length consumed by the group together with the group and continuation
lengths of the remainder of the pattern. -/
def importTypeOpt (s3 : Chars) : Option (Nat × Nat × Nat) :=
  if s3.take 4 = ['t', 'y', 'p', 'e'] then
    match typeWS (s3.drop 4) (wsRun (s3.drop 4)) with
    | some (c, k, n) => some (4 + c, k, n)
    | none =>
      match lookLazy s3 with
      | some (k, n) => some (0, k, n)
      | none => none
  else
    match lookLazy s3 with
    | some (k, n) => some (0, k, n)
    | none => none

/-- Backtracking over the whitespace lengths of `import\s+`, longest first.
For each candidate the remainder of the pattern is attempted (with the
optional `type` group when `ts` is true).  Returns the whitespace length, the
length of the optional `type` group, the lazy-group length and the
continuation length. -/
def importTail (ts : Bool) (s2 : Chars) : Nat → Option (Nat × Nat × Nat × Nat)
  | 0 => none
  | b + 1 =>
    match (if ts then importTypeOpt (s2.drop (b + 1)) else
      match lookLazy (s2.drop (b + 1)) with
      | some (k, n) => some (0, k, n)
      | none => none) with
    | some (t, k, n) => some (b + 1, t, k, n)
    | none => importTail ts s2 b

/-- Matcher for the import-statement pattern of `detectUnusedImports`
(`^\s*import\s+(?!['"])([\s\S]*?)\s+from\s+['"][^'"]+['"]`), respectively of
`detectUnusedTypeScriptImports` (with `(?:type\s+)?` inserted, when `ts` is
true), at a line-start position.  The leading `\s*` is followed by the
non-whitespace literal `import`, so only its maximal run is viable.  Returns
the total match length, the offset of capture group 1 and its length. -/
def matchImportAt (ts : Bool) (s : Chars) : Option (Nat × Nat × Nat) :=
  let a := wsRun s
  let s1 := s.drop a
  if s1.take 6 = ['i', 'm', 'p', 'o', 'r', 't'] then
    let s2 := s1.drop 6
    match importTail ts s2 (wsRun s2) with
    | some (b, t, k, n) => some (a + 6 + b + t + k + n, a + 6 + b + t, k)
    | none => none
  else none

/-- One match of the exec loop: `index` and total length of `m[0]`, and the
characters of capture group 1 (the import clause). -/
structure ImportMatch where
  index : Nat
  len : Nat
  clause : Chars
deriving DecidableEq, Repr

/-- Exec loop of the global multiline regex: scan positions left to right; a
match may start only at a line start (`^` under the `m` flag), and the scan
resumes at the end of each match.  The `lastIndex` jump of the source loop is
reformulated structurally with a skip counter: after a match of length `len`
the next `len - 1` characters are consumed one at a time (the first was
consumed when the match was emitted), which advances the position and tracks
the line-start flag exactly as the jump does.  `ls` records whether the
current position is a line start; `pos` is the absolute position of the head
of `s`. -/
def importMatchesAux (ts : Bool) : Nat → Bool → Nat → Chars → List ImportMatch
  | _, _, _, [] => []
  | skip + 1, _, pos, c :: rest => importMatchesAux ts skip (c == '\n') (pos + 1) rest
  | 0, ls, pos, c :: rest =>
    if ls then
      match matchImportAt ts (c :: rest) with
      | some (len, go, gl) =>
        ⟨pos, len, ((c :: rest).drop go).take gl⟩ ::
          importMatchesAux ts (len - 1) (c == '\n') (pos + 1) rest
      | none => importMatchesAux ts 0 (c == '\n') (pos + 1) rest
    else importMatchesAux ts 0 (c == '\n') (pos + 1) rest

/-- All matches of the import-statement pattern over the file, from position
zero (a line start). -/
def importMatches (ts : Bool) (code : Chars) : List ImportMatch :=
  importMatchesAux ts 0 true 0 code

/-- JavaScript `String.prototype.trim` on the character list. -/
def trimChars (s : Chars) : Chars :=
  ((s.dropWhile isWS).reverse.dropWhile isWS).reverse

/-- Full-anchor identifier match `^[A-Za-z_$][\w$]*$`. -/
def identMatchFull (s : Chars) : Option Chars :=
  match s with
  | c :: _ =>
    if isIdStart c && classRun isIdChar s = s.length then some s else none
  | [] => none

/-- Matcher for the namespace clause pattern `^\*\s+as\s+([A-Za-z_$][\w$]*)$`. -/
def matchNsClause (cl : Chars) : Option Chars :=
  match cl with
  | '*' :: rest =>
    let a := wsRun rest
    if a = 0 then none
    else
      let r1 := rest.drop a
      if r1.take 2 = ['a', 's'] then
        let r2 := r1.drop 2
        let b := wsRun r2
        if b = 0 then none else identMatchFull (r2.drop b)
      else none
  | _ => none

/-- Matcher for the alias pattern `^([A-Za-z_$][\w$]*)\s+as\s+([A-Za-z_$][\w$]*)$`
with the `i` flag (so `as` is matched case-insensitively).  The identifier
runs and whitespace runs cannot overlap, so the maximal runs are the only
viable candidates.  Returns the alias (capture group 2). -/
def matchAliasClause (raw : Chars) : Option Chars :=
  match raw with
  | c :: _ =>
    if isIdStart c then
      let n := classRun isIdChar raw
      let r1 := raw.drop n
      let a := wsRun r1
      if a = 0 then none
      else
        match r1.drop a with
        | x :: y :: r3 =>
          if (x = 'a' || x = 'A') && (y = 's' || y = 'S') then
            let b := wsRun r3
            if b = 0 then none else identMatchFull (r3.drop b)
          else none
        | _ => none
    else none
  | [] => none

/-- Matcher for the TypeScript named-binding pattern `^type\s+([A-Za-z_$][\w$]*)$`. -/
def matchTypeClause (raw : Chars) : Option Chars :=
  if raw.take 4 = ['t', 'y', 'p', 'e'] then
    let r1 := raw.drop 4
    let a := wsRun r1
    if a = 0 then none else identMatchFull (r1.drop a)
  else none

/-- Port of `topLevelCommaIndex` / `findTopLevelComma`: index of the first
comma not nested inside braces (`-1`, i.e. `none`, when there is none). -/
def topLevelCommaIdx : Chars → Int → Option Nat
  | [], _ => none
  | c :: rest, depth =>
    if c = '{' then (topLevelCommaIdx rest (depth + 1)).map (· + 1)
    else if c = '}' then (topLevelCommaIdx rest (depth - 1)).map (· + 1)
    else if c = ',' && depth = 0 then some 0
    else (topLevelCommaIdx rest depth).map (· + 1)

/-- Capture group of `/\{([^}]*)\}/` applied to the named block: the
characters between the first `{` and the first `}` after it; the empty list
when the pattern does not match (mirroring `|| [null, '']`). -/
def innerBraces (nb : Chars) : Chars :=
  match nb.dropWhile (fun c => !(c = '{')) with
  | _ :: rest =>
    let r := rest.takeWhile (fun c => !(c = '}'))
    if rest.length = r.length then [] else r
  | [] => []

/-- JavaScript `String.prototype.split(sep)` for a one-character separator. -/
def splitOnChar (sep : Char) : Chars → List Chars
  | [] => [[]]
  | c :: rest =>
    if c = sep then [] :: splitOnChar sep rest
    else
      match splitOnChar sep rest with
      | h :: t => (c :: h) :: t
      | [] => [[c]]

/-- Whether `p` is a prefix of the second list. -/
def listPrefix : Chars → Chars → Bool
  | [], _ => true
  | _ :: _, [] => false
  | p :: ps, c :: cs => p = c && listPrefix ps cs

/-- Whether `pat` is a suffix of the second list. -/
def listEnds (pat s : Chars) : Bool :=
  listPrefix pat.reverse s.reverse

/-- Value of `body[i]` being a `\w` character (out-of-range positions count as
non-word, as in the JavaScript word-boundary rule). -/
def wordCharAt (body : Chars) (i : Nat) : Bool :=
  match body[i]? with
  | some c => isWordChar c
  | none => false

/-- The JavaScript word boundary `\b` at position `q`: the word-character
statuses of the two adjacent positions differ (position `-1` counts as
non-word). -/
def boundaryAt (body : Chars) (q : Nat) : Bool :=
  (if q = 0 then false else wordCharAt body (q - 1)) != wordCharAt body q

/-- Occurrence of `ident` at position `p` of `body` with word boundaries on
both sides, i.e. a match of `\b<ident>\b` at `p` (the identifier contains no
regex metacharacter after `escapeRegExp`, so it is matched literally). -/
def matchesAt (ident body : Chars) (p : Nat) : Bool :=
  decide ((body.drop p).take ident.length = ident) &&
    boundaryAt body p && boundaryAt body (p + ident.length)

/-- Test of the regex `\b<ident>\b` against `body`data: some position carries a
word-bounded occurrence. -/
def wordOccurs (ident body : Chars) : Bool :=
  (List.range (body.length + 1)).any (matchesAt ident body)

/-- Port of `isUsed` / `isUsedInCode`: the identifier is searched in the text
with the import statement's own span removed and replaced by a newline
(`before + '\n' + after`). -/
def isUsed (code ident : Chars) (importStart importLen : Nat) : Bool :=
  wordOccurs ident (code.take importStart ++ '\n' :: code.drop (importStart + importLen))

/-- Names pushed by the body of the exec loop of `detectUnusedImports`
(`ts = false`), respectively `detectUnusedTypeScriptImports` (`ts = true`,
which additionally recognises `type` named bindings), for one match. -/
def processMatch (ts : Bool) (code : Chars) (m : ImportMatch) : List Chars :=
  let clause := trimChars m.clause
  match matchNsClause clause with
  | some ns => if isUsed code ns m.index m.len then [] else [ns]
  | none =>
    let pair : Option Chars × Option Chars :=
      match topLevelCommaIdx clause 0 with
      | none =>
        if clause.headD ' ' = '{' then (none, some clause) else (some clause, none)
      | some i => (some (trimChars (clause.take i)), some (trimChars (clause.drop (i + 1))))
    let dPart : List Chars :=
      match pair.1 with
      | some d =>
        if d ≠ [] && d.headD ' ' ≠ '{' then
          if isUsed code d m.index m.len then [] else [d]
        else []
      | none => []
    let nPart : List Chars :=
      match pair.2 with
      | some nb =>
        (((splitOnChar ',' (innerBraces nb)).map trimChars).filter (fun r => r ≠ [])).flatMap
          (fun raw =>
            let name :=
              if ts then
                match matchTypeClause raw with
                | some t => t
                | none =>
                  match matchAliasClause raw with
                  | some a => a
                  | none => raw
              else
                match matchAliasClause raw with
                | some a => a
                | none => raw
            if isUsed code name m.index m.len then [] else [name])
      | none => []
    dPart ++ nPart

/-- Shared core of the two unused-import detectors: run the exec loop from
position zero (a line start) and collect the pushes of each iteration in
order. -/
def detectUnusedCore (ts : Bool) (code : Chars) : List Chars :=
  (importMatches ts code).flatMap (processMatch ts code)

/-- Port of `detectUnusedImports` of `src/commands/scan.js`. -/
def detectUnusedImports (code : String) : List String :=
  (detectUnusedCore false code.data).map String.mk

/-- Port of `detectUnusedTypeScriptImports` of `src/analyzers/typescript.js`. -/
def detectUnusedTypeScriptImports (code : String) : List String :=
  (detectUnusedCore true code.data).map String.mk

/-!
Dead-file analyzer (`src/analyzers/dead-files.js`).

The reference-extraction regex is
`(?:import\s+(?:[\w*{}\s,]+\s+from\s+)?['"]([^'"]+)['"]|require\s*\(\s*['"]([^'"]+)['"]\s*\))`
executed globally (no anchors).  It is embedded below by the same technique
as the import-statement pattern above.
-/

/-- Character class `[\w*{}\s,]` of the optional clause group. -/
def refClass (c : Char) : Bool :=
  isWordChar c || c = '*' || c = '{' || c = '}' || isWS c || c = ','

/-- Backtracking over the lengths of the clause run `[\w*{}\s,]+`, longest
first, each followed by `\s+from\s+['"]([^'"]+)['"]`.  Returns the chosen
run length, the continuation length and the captured specifier. -/
def refImportWith (s2 : Chars) : Nat → Option (Nat × Nat × Chars)
  | 0 => none
  | c + 1 =>
    match matchFromClauseG (s2.drop (c + 1)) with
    | some (flen, spec) => some (c + 1, flen, spec)
    | none => refImportWith s2 c

/-- Backtracking over the whitespace lengths of `import\s+`, longest first;
for each, the present alternative of the optional group
`(?:[\w*{}\s,]+\s+from\s+)?` is preferred over the absent one, which matches
the quoted specifier directly.  Returns the consumed length after `import`
and the captured specifier. -/
def refImportB (s1 : Chars) : Nat → Option (Nat × Chars)
  | 0 => none
  | b + 1 =>
    let s2 := s1.drop (b + 1)
    match refImportWith s2 (classRun refClass s2) with
    | some (c, flen, spec) => some (b + 1 + c + flen, spec)
    | none =>
      match matchQuotedG s2 with
      | some (q, spec) => some (b + 1 + q, spec)
      | none => refImportB s1 b

/-- The `import` alternative of the reference-extraction regex at the head of
the input.  Returns the match length and captured specifier. -/
def refImportAt (s : Chars) : Option (Nat × Chars) :=
  if s.take 6 = ['i', 'm', 'p', 'o', 'r', 't'] then
    let s1 := s.drop 6
    match refImportB s1 (wsRun s1) with
    | some (m, spec) => some (6 + m, spec)
    | none => none
  else none

/-- The `require\s*\(\s*['"]([^'"]+)['"]\s*\)` alternative at the head of the
input.  Every `\s*` is followed by a non-whitespace literal, so the maximal
runs are the only viable candidates. -/
def matchRequireAt (s : Chars) : Option (Nat × Chars) :=
  if s.take 7 = ['r', 'e', 'q', 'u', 'i', 'r', 'e'] then
    let s1 := s.drop 7
    let a := wsRun s1
    match s1.drop a with
    | '(' :: s3 =>
      let b := wsRun s3
      match matchQuotedG (s3.drop b) with
      | some (q, spec) =>
        let s5 := (s3.drop b).drop q
        let c := wsRun s5
        match s5.drop c with
        | ')' :: _ => some (7 + a + 1 + b + q + c + 1, spec)
        | _ => none
      | none => none
    | _ => none
  else none

/-- One alternative of the reference regex at the head of the input: the
`import` branch is preferred over the `require` branch. -/
def refMatchAt (s : Chars) : Option (Nat × Chars) :=
  match refImportAt s with
  | some r => some r
  | none => matchRequireAt s

/-- Exec loop of the global reference regex: scan positions left to right,
resuming after each match; the `lastIndex` jump is reformulated with a skip
counter as in `importMatchesAux`. -/
def refMatchesAux : Nat → Chars → List Chars
  | _, [] => []
  | skip + 1, _ :: rest => refMatchesAux skip rest
  | 0, c :: rest =>
    match refMatchAt (c :: rest) with
    | some (len, spec) => spec :: refMatchesAux (len - 1) rest
    | none => refMatchesAux 0 rest

/-- All specifiers captured by the reference regex over the file. -/
def refMatches (code : Chars) : List Chars :=
  refMatchesAux 0 code

/-!
Model of the Node `path` primitives used by the analyzer.  The scanner only
ever handles absolute file paths below the scan root, so the model covers
that domain: `resolvePath` is `path.resolve` for an absolute base directory,
`dirname` is `path.dirname`, `hasExtname` is the truthiness of
`path.extname`, and `relativePath` is `path.relative` for a file below the
root.
-/

/-- Join path segments with `/`. -/
def joinSlash : List Chars → Chars
  | [] => []
  | [s] => s
  | s :: rest => s ++ '/' :: joinSlash rest

/-- Normalisation of an absolute path: split on `/`, drop empty and `.`
segments, let `..` pop the previous segment. -/
def normAbs (s : String) : String :=
  String.mk ('/' :: joinSlash
    ((splitOnChar '/' s.data).foldl
      (fun acc seg =>
        if seg = [] || seg = ['.'] then acc
        else if seg = ['.', '.'] then acc.dropLast
        else acc ++ [seg]) []))

/-- Model of `path.resolve(dir, p)` for an absolute `dir`. -/
def resolvePath (dir p : String) : String :=
  if listPrefix ['/'] p.data then normAbs p else normAbs (dir ++ "/" ++ p)

/-- Model of `path.dirname` for an absolute path. -/
def dirname (p : String) : String :=
  let j := joinSlash (splitOnChar '/' p.data).dropLast
  if j = [] then "/" else String.mk j

/-- Model of the truthiness of `path.extname p`: the basename contains a dot
at a position other than the first. -/
def hasExtname (p : String) : Bool :=
  let base := (splitOnChar '/' p.data).getLastD []
  let tailRun := base.reverse.takeWhile (fun c => !(c = '.'))
  tailRun.length < base.length && base.length - 1 - tailRun.length ≥ 1

/-- Model of `path.relative(root, file)` for a file below the root. -/
def relativePath (root file : String) : String :=
  if listPrefix (root.data ++ ['/']) file.data then
    String.mk (file.data.drop (root.data.length + 1))
  else file

/-- Port of `resolveImportPath`: resolve the specifier against the importing
file's directory; when the specifier has an extension probe the exact path,
otherwise probe the six extensions and then the four index files; the first
candidate contained in the known file set wins. -/
def resolveImportPath (importPath currentDir : String) (allFiles : List String) :
    Option String :=
  let basePath := resolvePath currentDir importPath
  let candidates :=
    if hasExtname importPath then [basePath]
    else
      [basePath ++ ".js", basePath ++ ".mjs", basePath ++ ".cjs",
       basePath ++ ".ts", basePath ++ ".tsx", basePath ++ ".jsx",
       resolvePath basePath "index.js", resolvePath basePath "index.mjs",
       resolvePath basePath "index.cjs", resolvePath basePath "index.ts"]
  candidates.find? (fun c => allFiles.contains c)

/-- Port of `extractImports`: collect the specifiers of all regex matches,
skip external packages (not starting with `.` or `/`), resolve the rest and
keep the resolutions. -/
def extractImports (code : Chars) (currentFile : String) (allFiles : List String) :
    List String :=
  (refMatches code).filterMap (fun spec =>
    if listPrefix ['.'] spec || listPrefix ['/'] spec then
      resolveImportPath (String.mk spec) (dirname currentFile) allFiles
    else none)

/-- Port of the entry-point conditions of `findEntryPoints`. -/
def isEntryFile (root file : String) : Bool :=
  let rel := (relativePath root file).data
  let parts := splitOnChar '/' rel
  let filename := parts.getLastD []
  filename == "index.js".data || filename == "index.mjs".data ||
  filename == "index.cjs".data ||
  filename == "main.js".data || filename == "app.js".data ||
  filename == "server.js".data ||
  listPrefix "bin/".data rel || parts.contains "bin".data ||
  parts.contains "cli".data ||
  listEnds ".test.js".data filename || listEnds ".spec.js".data filename ||
  listEnds ".test.mjs".data filename || listEnds ".spec.mjs".data filename

/-- Port of `findEntryPoints`: the files matching the heuristics, or the whole
file set when none matches (the conservative fallback). -/
def findEntryPoints (files : List String) (root : String) : List String :=
  let entryPoints := files.filter (isEntryFile root)
  if entryPoints = [] then files else entryPoints

/-- The forward import graph of `detectDeadFiles`, keyed by file: each
discovered file maps to the resolved targets extracted from its content; a
file that cannot be read contributes no edges.  `read` models `readFile`. -/
def buildGraph (files : List String) (read : String → Option String) :
    List (String × List String) :=
  files.map (fun f =>
    (f, match read f with
        | some c => extractImports c.data f files
        | none => []))

/-- Lookup in the import graph, mirroring `importGraph.get(current) || new Set()`. -/
def graphLookup (g : List (String × List String)) (f : String) : List String :=
  ((g.find? (fun pr => pr.1 == f)).map Prod.snd).getD []

/-- Inner loop of the traversal: the imports not yet in the visited set, in
order, each added to the visited set as it is encountered (so a duplicate
later in the list is not added twice), exactly as `used.add` / `queue.push`
behave under the `used.has` guard. -/
def newImports (used : List String) : List String → List String
  | [] => []
  | i :: rest =>
    if used.contains i then newImports used rest
    else i :: newImports (used ++ [i]) rest

/-- All edge targets of the graph; the traversal only ever enqueues elements
of this list, which bounds the growth of the visited set and yields the
termination measure. -/
def allTargets (g : List (String × List String)) : List String :=
  g.flatMap Prod.snd

/-- Breadth-first traversal of `detectDeadFiles`: pop the queue head, add its
unvisited imports to the visited set and the queue, until the queue is
exhausted.  Termination: each step either adds no file (and shortens the
queue) or strictly shrinks the set of not-yet-visited edge targets. -/
def bfsAux (g : List (String × List String)) (used queue : List String) :
    List String :=
  match queue with
  | [] => used
  | current :: rest =>
    bfsAux g (used ++ newImports used (graphLookup g current))
      (rest ++ newImports used (graphLookup g current))
termination_by
  (((allTargets g).filter (fun f => !used.contains f)).length, queue.length)
decreasing_by
  · have key : ∀ (l u : List String) a t, newImports u l = a :: t →
        a ∈ l ∧ u.contains a = false := by
      intro l
      induction l with
      | nil => intro u a t h; simp [newImports] at h
      | cons j restl ih =>
        intro u a t h
        rw [newImports] at h
        by_cases hc : u.contains j
        · simp only [hc, if_true] at h
          obtain ⟨h1, h2⟩ := ih u a t h
          exact ⟨List.mem_cons_of_mem _ h1, h2⟩
        · simp only [hc, if_false] at h
          have hja : j = a := (List.cons.injEq j _ a t).mp h |>.1
          subst hja
          exact ⟨List.mem_cons_self _ _, by simpa using hc⟩
    have hsub : ∀ (N : List String),
        List.Sublist
          ((allTargets g).filter (fun f => !(used ++ N).contains f))
          ((allTargets g).filter (fun f => !used.contains f)) := by
      intro N
      apply List.monotone_filter_right
      intro a ha
      simp only [Bool.not_eq_true'] at ha ⊢
      by_contra hcu
      have h1 : used.contains a = true := by
        cases h2 : used.contains a with
        | false => exact absurd h2 hcu
        | true => rfl
      have h3 : (used ++ N).contains a = true :=
        List.elem_iff.mpr (List.mem_append_left N (List.elem_iff.mp h1))
      rw [h3] at ha
      exact Bool.noConfusion ha
    have main : ∀ (cur : String) (rst : List String),
        Prod.Lex (· < ·) (· < ·)
          (((allTargets g).filter
              (fun f => !(used ++ newImports used (graphLookup g cur)).contains f)).length,
            (rst ++ newImports used (graphLookup g cur)).length)
          (((allTargets g).filter (fun f => !used.contains f)).length,
            (cur :: rst).length) := by
      intro cur rst
      cases hN : newImports used (graphLookup g cur) with
      | nil =>
        simp only [List.append_nil]
        exact Prod.Lex.right _ (by simp only [List.length_cons]; omega)
      | cons a t =>
        apply Prod.Lex.left
        obtain ⟨haL, haU⟩ := key _ _ _ _ hN
        have haT : a ∈ allTargets g := by
          have hex : ∃ pr, (g.find? (fun pr => pr.1 == cur)) = some pr ∧
              a ∈ pr.2 := by
            unfold graphLookup at haL
            cases hf : g.find? (fun pr => pr.1 == cur) with
            | none => rw [hf] at haL; simp at haL
            | some pr => exact ⟨pr, rfl, by rw [hf] at haL; simpa using haL⟩
          obtain ⟨pr, hf, hm⟩ := hex
          have hprg : pr ∈ g := List.mem_of_find?_eq_some hf
          exact List.mem_flatMap.mpr ⟨pr, hprg, hm⟩
        have hne :
            ((allTargets g).filter (fun f => !(used ++ a :: t).contains f)) ≠
            ((allTargets g).filter (fun f => !used.contains f)) := by
          intro heq
          have hmem : a ∈ (allTargets g).filter (fun f => !used.contains f) :=
            List.mem_filter.mpr ⟨haT, by simpa using haU⟩
          rw [← heq] at hmem
          have hc := (List.mem_filter.mp hmem).2
          simp only [Bool.not_eq_true'] at hc
          have h3 : (used ++ a :: t).contains a = true :=
            List.elem_iff.mpr (List.mem_append_right used (List.mem_cons_self a t))
          rw [h3] at hc
          exact Bool.noConfusion hc
        exact Nat.lt_of_le_of_ne ((hsub (a :: t)).length_le)
          (fun h => hne ((hsub (a :: t)).eq_of_length h))
    exact main _ _

/-- Port of `detectDeadFiles`: build the import graph, find the entry points,
mark everything reachable from them by the breadth-first traversal, and
report the unvisited files as root-relative paths.  (The `importedBy`
reverse index of the source is built but never read by the dead-file
computation, so it is omitted.) -/
def detectDeadFiles (files : List String) (root : String)
    (read : String → Option String) : List String :=
  let g := buildGraph files read
  let entryPoints := findEntryPoints files root
  let used := bfsAux g entryPoints entryPoints
  (files.filter (fun f => !used.contains f)).map (relativePath root)

/-!
Cache store (`src/utils/cache.js`).

A stored record is `{ version, timestamp, data }` serialised as JSON under a
file whose name is derived from the key.  The store is modelled as an
association list from keys to `Option CacheEntry`: an absent key models a
missing cache file (or an I/O failure while reading it), and a `none` value
models a file whose content fails to parse (`JSON.parse` throwing, caught by
the surrounding `try`).  Payloads are issue lists, the only data the scan
caches.  `Date.now()` is an integer parameter.
-/

/-- Issue record shape produced by the scan; absent fields are `none`. -/
structure Issue where
  type : String
  file : String := ""
  symbol : Option String := none
  language : Option String := none
  message : Option String := none
  name : Option String := none
  version : Option String := none
  reason : Option String := none
  category : Option String := none
deriving DecidableEq, Repr

/-- The `CACHE_VERSION` constant of `src/utils/cache.js`. -/
def CACHE_VERSION : String := "1"

/-- A parsed cache record. -/
structure CacheEntry where
  version : String
  timestamp : Int
  data : List Issue
deriving DecidableEq, Repr

/-- The persistent store, keyed by cache key. -/
abbrev Store := List (String × Option CacheEntry)

/-- Content of the cache file for a key: `none` when the file is missing or
unreadable, `some none` when its content does not parse. -/
def lookupStore (store : Store) (key : String) : Option (Option CacheEntry) :=
  (store.find? (fun pr => pr.1 == key)).map Prod.snd

/-- Default `maxAge` of `getCache` (one hour in milliseconds). -/
def defaultMaxAge : Int := 3600000

/-- Port of `getCache`: a missing file, an unparsable record, a version
mismatch or an expired age all yield `none` (a miss); the function is total,
mirroring the `try`/`catch` that turns every failure into `null`. -/
def getCache (store : Store) (key : String) (now maxAge : Int) :
    Option (List Issue) :=
  match lookupStore store key with
  | none => none
  | some none => none
  | some (some cache) =>
    if cache.version ≠ CACHE_VERSION then none
    else if now - cache.timestamp > maxAge then none
    else some cache.data

/-- Port of `setCache`: write a record with the current schema version and
timestamp under the key (overwriting any previous record for the key, since
both map to the same cache file). -/
def setCache (store : Store) (key : String) (data : List Issue) (now : Int) :
    Store :=
  (key, some ⟨CACHE_VERSION, now, data⟩) :: store

/-- Port of `getFileCacheKey`: the key template
`` `${operation}:${filePath}:${hash}` ``.  The content hash (`getFileHash`
reads the file and digests it) is passed explicitly. -/
def getFileCacheKey (filePath operation hash : String) : String :=
  operation ++ ":" ++ filePath ++ ":" ++ hash

/-- Whether a string contains no colon (true of the operation names used by
the callers and of every `md5` hex digest produced by `getFileHash`). -/
def colonFree (s : String) : Bool :=
  !(s.data.contains ':')

/-!
Pure aggregation core of `runScan` (`src/commands/scan.js`).

Discovery is modelled as the ordered list of `(path, content)` pairs the
glob enumeration produces; the content hash function (`md5` over the file
text) is a parameter; `detectStaleDeps` reads `package.json`, outside the
scanned file set, so its issue list is a parameter.  The per-file loop is
`scanStep`: consult the cache under `scan:<path>:<hash>` (unless `--no-cache`
was given), on a hit reuse the stored issue list — an empty array is a JS
truthy value, so an empty stored list is also reused — and on a miss run the
unused-import detector, wrap its symbols as issues and store them.  The
third component counts analyzer executions (cache misses). -/

/-- Per-file analyzer pipeline of the cache-miss branch: pick the detector by
file extension and wrap each unused symbol as an `unused_import` issue. -/
def computeFileIssues (cwd file content : String) : List Issue :=
  let isTS := listEnds ".ts".data file.data || listEnds ".tsx".data file.data
  let unused :=
    if isTS then detectUnusedTypeScriptImports content
    else detectUnusedImports content
  unused.map (fun sym =>
    { type := "unused_import", file := relativePath cwd file, symbol := some sym,
      language := some (if isTS then "typescript" else "javascript") })

/-- One iteration of the per-file loop of `runScan`. -/
def scanStep (useCache : Bool) (now : Int) (hashFn : String → String)
    (cwd : String) (acc : List Issue × Store × Nat) (pc : String × String) :
    List Issue × Store × Nat :=
  let key := getFileCacheKey pc.1 "scan" (hashFn pc.2)
  match (if useCache then getCache acc.2.1 key now defaultMaxAge else none) with
  | some fileIssues => (acc.1 ++ fileIssues, acc.2.1, acc.2.2)
  | none =>
    let fileIssues := computeFileIssues cwd pc.1 pc.2
    (acc.1 ++ fileIssues,
     (if useCache then setCache acc.2.1 key fileIssues now else acc.2.1),
     acc.2.2 + 1)

/-- The per-file loop of `runScan` over the discovered files. -/
def scanLoop (useCache : Bool) (now : Int) (hashFn : String → String)
    (cwd : String) (files : List (String × String)) (store : Store) :
    List Issue × Store × Nat :=
  files.foldl (scanStep useCache now hashFn cwd) ([], store, 0)

/-- The dead-file issues appended by `runScan` after the per-file loop. -/
def deadFileIssues (root : String) (files : List (String × String)) :
    List Issue :=
  (detectDeadFiles (files.map Prod.fst) root
      (fun p => (files.find? (fun pr => pr.1 == p)).map Prod.snd)).map
    (fun f => { type := "dead_file", file := f,
                message := some "File is never imported by any other file" })

/-- Aggregation core of `runScan`: the issue list is the concatenation of the
per-file issues in discovery order, the dead-file issues and the
stale-dependency issues; no reordering is applied before the report is
written.  Also returns the final store and the analyzer-invocation count. -/
def runScanIssues (useCache : Bool) (now : Int) (hashFn : String → String)
    (root cwd : String) (files : List (String × String)) (store : Store)
    (staleIssues : List Issue) : List Issue × Store × Nat :=
  let r := scanLoop useCache now hashFn cwd files store
  (r.1 ++ deadFileIssues root files ++ staleIssues, r.2.1, r.2.2)

/-- Reachability in the import graph from a set of start files: the base
case is a start file, the step follows a forward edge.  This is the
specification-level notion the breadth-first traversal computes. -/
inductive ReachableFrom (g : List (String × List String)) (starts : List String) :
    String → Prop
  | base {x : String} : x ∈ starts → ReachableFrom g starts x
  | step {b c : String} : ReachableFrom g starts b → c ∈ graphLookup g b →
      ReachableFrom g starts c

/-- Modelled from the spec (§4.1, claim C8): the probe order the
specification describes for an extensionless specifier — the six extensions
`.js .mjs .cjs .ts .tsx .jsx` and then index files of those same six
extensions — with the first candidate present in the known file set
returned.  (The source, by contrast, probes only four index files.) -/
def specResolveImportPath (importPath currentDir : String)
    (allFiles : List String) : Option String :=
  let basePath := resolvePath currentDir importPath
  let candidates :=
    if hasExtname importPath then [basePath]
    else
      [basePath ++ ".js", basePath ++ ".mjs", basePath ++ ".cjs",
       basePath ++ ".ts", basePath ++ ".tsx", basePath ++ ".jsx",
       resolvePath basePath "index.js", resolvePath basePath "index.mjs",
       resolvePath basePath "index.cjs", resolvePath basePath "index.ts",
       resolvePath basePath "index.tsx", resolvePath basePath "index.jsx"]
  candidates.find? (fun c => allFiles.contains c)

/-- Whether `pat` occurs as a contiguous substring of `s`. -/
def hasSubstr (pat s : Chars) : Bool :=
  (List.range (s.length + 1)).any (fun p => decide ((s.drop p).take pat.length = pat))

/-- Concrete file content `import x from 'p'` + newline, used by concrete
instances below (built from characters to keep the quote characters out of
string literals). -/
def srcImportX : String :=
  String.mk ['i', 'm', 'p', 'o', 'r', 't', ' ', 'x', ' ', 'f', 'r', 'o', 'm',
    ' ', '\'', 'p', '\'', '\n']

/-- Concrete file content `import y from 'q'` + newline. -/
def srcImportY : String :=
  String.mk ['i', 'm', 'p', 'o', 'r', 't', ' ', 'y', ' ', 'f', 'r', 'o', 'm',
    ' ', '\'', 'q', '\'', '\n']

/-- A store is fresh at time `t` when every record it holds parses, carries
the current schema version and was written at `t`. -/
def freshStore (t : Int) (store : Store) : Prop :=
  ∀ k oe, lookupStore store k = some oe →
    ∃ e : CacheEntry, oe = some e ∧ e.version = CACHE_VERSION ∧ e.timestamp = t

/-- Executable lexicographic order on character lists (the string order used
to phrase sortedness). -/
def charsLe : Chars → Chars → Bool
  | [], _ => true
  | _ :: _, [] => false
  | a :: as, b :: bs => if a < b then true else if a = b then charsLe as bs else false

/-- Concrete file content `import './b.js'` + newline. -/
def srcImportRelB : String :=
  String.mk ['i', 'm', 'p', 'o', 'r', 't', ' ', '\'', '.', '/', 'b', '.', 'j',
    's', '\'', '\n']

/-- Concrete file content `import './a.js'` + newline. -/
def srcImportRelA : String :=
  String.mk ['i', 'm', 'p', 'o', 'r', 't', ' ', '\'', '.', '/', 'a', '.', 'j',
    's', '\'', '\n']

/-- Concrete read map for the cycle scenario: an entry file under `cli/` with
no imports, and two files importing each other. -/
def cycleRead : String → Option String := fun p =>
  if p = "/r/a.js" then some srcImportRelB
  else if p = "/r/b.js" then some srcImportRelA
  else if p = "/r/cli/run.js" then some "" else none

/-- The characters of the statement `import { join } from 'node:path'`. -/
def joinImportStmt : Chars :=
  ['i', 'm', 'p', 'o', 'r', 't', ' ', '{', ' ', 'j', 'o', 'i', 'n', ' ', '}',
   ' ', 'f', 'r', 'o', 'm', ' ', '\'', 'n', 'o', 'd', 'e', ':', 'p', 'a', 't',
   'h', '\'']

/-- The characters of the identifier `join`. -/
def joinChars : Chars := ['j', 'o', 'i', 'n']

/-- A word-bounded occurrence of `id` strictly inside the span
`[i, i + len)`: the position follows `i` and the occurrence ends before the
span does, so both boundary neighbours lie within the span. -/
def interiorWordOcc (id code : Chars) (i len : Nat) : Bool :=
  (List.range (code.length + 1)).any (fun p =>
    decide (i + 1 ≤ p) && decide (p + id.length + 1 ≤ i + len) &&
      matchesAt id code p)

/-- One statement of the form `import $ from 'q'`, binding the default
name `$`. -/
def dollarStmt (q : Char) : Chars :=
  ['i', 'm', 'p', 'o', 'r', 't', ' ', '$', ' ', 'f', 'r', 'o', 'm', ' ',
   '\'', q, '\'']

/-- A file whose two import statements both bind `$`, used nowhere else. -/
def dollarCode : Chars := dollarStmt 'a' ++ '\n' :: dollarStmt 'b' ++ ['\n']

/-- A file whose two import statements both bind `join`, used nowhere else. -/
def dupImportCode : Chars := joinImportStmt ++ '\n' :: joinImportStmt ++ ['\n']

/-!
## General lemmas
-/

/-- Elements produced by `newImports` come from the scanned import list. -/
theorem newImports_subset : ∀ (l used : List String) (x : String),
    x ∈ newImports used l → x ∈ l := by
  intro l
  induction l with
  | nil => intro used x hx; simp [newImports] at hx
  | cons i rest ih =>
    intro used x hx
    rw [newImports] at hx
    by_cases hc : used.contains i
    · simp only [hc, if_true] at hx
      exact List.mem_cons_of_mem _ (ih used x hx)
    · simp only [hc, if_false] at hx
      rcases List.mem_cons.mp hx with rfl | hx
      · exact List.mem_cons_self _ _
      · exact List.mem_cons_of_mem _ (ih (used ++ [i]) x hx)

/-- The visited set only grows during the traversal. -/
theorem bfsAux_mem_of_mem_used (g : List (String × List String)) :
    ∀ (used queue : List String) (x : String), x ∈ used →
    x ∈ bfsAux g used queue := by
  intro used queue
  induction used, queue using bfsAux.induct g with
  | case1 used => intro x hx; rw [bfsAux]; exact hx
  | case2 used current rest ih =>
    intro x hx
    rw [bfsAux]
    exact ih x (List.mem_append_left _ hx)

/-- Soundness of the traversal: for any predicate closed under the graph
edges and holding on the initial visited set and queue, every visited file
satisfies it. -/
theorem bfsAux_sound (g : List (String × List String)) (R : String → Prop)
    (hcl : ∀ b c, R b → c ∈ graphLookup g b → R c) :
    ∀ (used queue : List String), (∀ u ∈ used, R u) → (∀ q ∈ queue, R q) →
    ∀ x ∈ bfsAux g used queue, R x := by
  intro used queue
  induction used, queue using bfsAux.induct g with
  | case1 used => intro hu _ x hx; rw [bfsAux] at hx; exact hu x hx
  | case2 used current rest ih =>
    intro hu hq x hx
    rw [bfsAux] at hx
    have hcur : R current := hq current (List.mem_cons_self _ _)
    have hnew : ∀ n ∈ newImports used (graphLookup g current), R n := by
      intro n hn
      exact hcl current n hcur (newImports_subset _ _ _ hn)
    refine ih ?_ ?_ x hx
    · intro u hu2
      rcases List.mem_append.mp hu2 with h | h
      · exact hu u h
      · exact hnew u h
    · intro q hq2
      rcases List.mem_append.mp hq2 with h | h
      · exact hq q (List.mem_cons_of_mem _ h)
      · exact hnew q h


/-!
## Claim theorems
-/

/-- When no file matches a heuristic, the fallback selects every file and
the traversal visits all of them, so no file is dead. -/
theorem noEntry_fallback_aux (files : List String) (root : String)
    (read : String → Option String)
    (hnoent : ∀ f ∈ files, isEntryFile root f = false) :
    findEntryPoints files root = files ∧ detectDeadFiles files root read = [] := by
  have hfe : files.filter (isEntryFile root) = [] := by
    rw [List.filter_eq_nil_iff]
    intro a ha
    simp [hnoent a ha]
  have h1 : findEntryPoints files root = files := by
    unfold findEntryPoints
    rw [hfe]
    rfl
  refine ⟨h1, ?_⟩
  show (files.filter
      (fun f => !(bfsAux (buildGraph files read) (findEntryPoints files root)
        (findEntryPoints files root)).contains f)).map (relativePath root) = []
  rw [h1]
  have hfil : files.filter
      (fun f => !(bfsAux (buildGraph files read) files files).contains f) = [] := by
    rw [List.filter_eq_nil_iff]
    intro a ha
    have hmem : a ∈ bfsAux (buildGraph files read) files files :=
      bfsAux_mem_of_mem_used _ _ _ _ ha
    simpa using hmem
  rw [hfil]
  rfl

/-- Claim C1: for a non-empty file set in which no file matches any
entry-point heuristic, `findEntryPoints` returns the entire file set, and
consequently `detectDeadFiles` classifies zero files as dead. -/
theorem claim1_entry_fallback (files : List String) (root : String)
    (read : String → Option String) (hne : files ≠ [])
    (hnoent : ∀ f ∈ files, isEntryFile root f = false) :
    findEntryPoints files root = files ∧ detectDeadFiles files root read = [] :=
  noEntry_fallback_aux files root read hnoent

/-- Witness for C1 at a concrete input: two files, neither matching an
entry-point heuristic. -/
theorem claim1_entry_fallback_witness :
    (["/r/x.js", "/r/y.js"] : List String) ≠ [] ∧
    (∀ f ∈ (["/r/x.js", "/r/y.js"] : List String), isEntryFile "/r" f = false) ∧
    (findEntryPoints ["/r/x.js", "/r/y.js"] "/r" = ["/r/x.js", "/r/y.js"] ∧
      detectDeadFiles ["/r/x.js", "/r/y.js"] "/r" (fun _ => none) = []) :=
  ⟨by decide, by decide,
    claim1_entry_fallback _ _ (fun _ => none) (by decide) (by decide)⟩

/-- Claim C6: `getCache` returns a payload exactly when the stored record
parses, carries the current schema version and is no older than `maxAge`
(default 3600000 ms); a missing file, an I/O failure, a corrupt record, a
version mismatch and an expired age are all misses.  Totality of the
function models the `try`/`catch` that prevents any failure from
propagating. -/
theorem claim6_getCache_miss_semantics :
    defaultMaxAge = 3600000 ∧
    ∀ (store : Store) (key : String) (now maxAge : Int) (payload : List Issue),
      getCache store key now maxAge = some payload ↔
      ∃ cache : CacheEntry, lookupStore store key = some (some cache) ∧
        cache.version = CACHE_VERSION ∧ now - cache.timestamp ≤ maxAge ∧
        payload = cache.data := by
  refine ⟨rfl, ?_⟩
  intro store key now maxAge payload
  unfold getCache
  cases hl : lookupStore store key with
  | none => simp
  | some oc =>
    cases oc with
    | none => simp
    | some cache =>
      constructor
      · intro h
        by_cases hv : cache.version = CACHE_VERSION
        · by_cases ha : now - cache.timestamp > maxAge
          · simp [hv, ha] at h
          · refine ⟨cache, rfl, hv, by omega, ?_⟩
            simp [hv, ha] at h
            exact h.symm
        · simp [hv] at h
      · rintro ⟨c2, hc2, hv2, ha2, rfl⟩
        obtain rfl : cache = c2 := by
          injection hc2 with h1
          injection h1
        have ha : ¬(now - cache.timestamp > maxAge) := by omega
        simp [hv2, ha]

/-- Counterexample to claim C8 as stated: the specifier `./lib` has no
extension and `lib/index.tsx` is in the known file set, so under the probe
order the claim describes (index files of all six extensions) resolution
would return it; the source probes only `index.js`, `index.mjs`,
`index.cjs`, `index.ts` as index files and returns null. -/
theorem claim8_index_probe_cex :
    resolveImportPath "./lib" "/r" ["/r/lib/index.tsx"] = none ∧
    specResolveImportPath "./lib" "/r" ["/r/lib/index.tsx"] =
      some "/r/lib/index.tsx" := by
  constructor
  · decide
  · decide

/-- Claim C8 as amended: for an extensionless local specifier the candidates
are probed in exactly this order — the base path with `.js`, `.mjs`, `.cjs`,
`.ts`, `.tsx`, `.jsx` appended, then `index.js`, `index.mjs`, `index.cjs`
and `index.ts` inside the base path — and the first candidate present in
the known file set is returned (`none` when none is). -/
theorem claim8_probe_order (importPath currentDir : String)
    (allFiles : List String) (hext : hasExtname importPath = false) :
    resolveImportPath importPath currentDir allFiles =
      [resolvePath currentDir importPath ++ ".js",
       resolvePath currentDir importPath ++ ".mjs",
       resolvePath currentDir importPath ++ ".cjs",
       resolvePath currentDir importPath ++ ".ts",
       resolvePath currentDir importPath ++ ".tsx",
       resolvePath currentDir importPath ++ ".jsx",
       resolvePath (resolvePath currentDir importPath) "index.js",
       resolvePath (resolvePath currentDir importPath) "index.mjs",
       resolvePath (resolvePath currentDir importPath) "index.cjs",
       resolvePath (resolvePath currentDir importPath) "index.ts"].find?
        (fun c => allFiles.contains c) := by
  unfold resolveImportPath
  rw [hext]
  rfl

/-- Witness for the amended C8 at a concrete input. -/
theorem claim8_probe_order_witness :
    hasExtname "./lib" = false ∧
    resolveImportPath "./lib" "/r" ["/r/lib.mjs"] =
      ["/r/lib.js", "/r/lib.mjs", "/r/lib.cjs", "/r/lib.ts", "/r/lib.tsx",
       "/r/lib.jsx", "/r/lib/index.js", "/r/lib/index.mjs", "/r/lib/index.cjs",
       "/r/lib/index.ts"].find?
        (fun c => (["/r/lib.mjs"] : List String).contains c) :=
  ⟨by decide, by
    have h := claim8_probe_order "./lib" "/r" ["/r/lib.mjs"] (by decide)
    rw [h]
    decide⟩

/-- Counterexample to claim C9 as stated: `index.ts` bears a conventional
entry name with a recognized extension, yet with another heuristic match
present (`app.js`, so the fallback does not fire) `findEntryPoints` does not
select it — the source compares the filename against `index.js`,
`index.mjs`, `index.cjs` only. -/
theorem claim9_entry_heuristic_cex :
    relativePath "/r" "/r/index.ts" = "index.ts" ∧
    "/r/index.ts" ∉ findEntryPoints ["/r/app.js", "/r/index.ts"] "/r" := by
  constructor
  · decide
  · decide

/-- Claim C9 as amended: a file of the discovered set is selected as an
entry point whenever its filename is exactly one of `index.js`, `index.mjs`,
`index.cjs`, `main.js`, `app.js`, `server.js`, or its root-relative path
starts with `bin/` or has a `bin` or `cli` segment, or its filename ends
with `.test.js`, `.spec.js`, `.test.mjs` or `.spec.mjs`. -/
theorem claim9_entry_heuristics (files : List String) (root f : String)
    (hf : f ∈ files)
    (hcond :
      (splitOnChar '/' (relativePath root f).data).getLastD [] = "index.js".data ∨
      (splitOnChar '/' (relativePath root f).data).getLastD [] = "index.mjs".data ∨
      (splitOnChar '/' (relativePath root f).data).getLastD [] = "index.cjs".data ∨
      (splitOnChar '/' (relativePath root f).data).getLastD [] = "main.js".data ∨
      (splitOnChar '/' (relativePath root f).data).getLastD [] = "app.js".data ∨
      (splitOnChar '/' (relativePath root f).data).getLastD [] = "server.js".data ∨
      listPrefix "bin/".data (relativePath root f).data = true ∨
      (splitOnChar '/' (relativePath root f).data).contains "bin".data = true ∨
      (splitOnChar '/' (relativePath root f).data).contains "cli".data = true ∨
      listEnds ".test.js".data
        ((splitOnChar '/' (relativePath root f).data).getLastD []) = true ∨
      listEnds ".spec.js".data
        ((splitOnChar '/' (relativePath root f).data).getLastD []) = true ∨
      listEnds ".test.mjs".data
        ((splitOnChar '/' (relativePath root f).data).getLastD []) = true ∨
      listEnds ".spec.mjs".data
        ((splitOnChar '/' (relativePath root f).data).getLastD []) = true) :
    f ∈ findEntryPoints files root := by
  have hef : isEntryFile root f = true := by
    unfold isEntryFile
    simp only [Bool.or_eq_true, beq_iff_eq]
    tauto
  unfold findEntryPoints
  by_cases hfil : files.filter (isEntryFile root) = []
  · have hmem : f ∈ files.filter (isEntryFile root) := List.mem_filter.mpr ⟨hf, hef⟩
    rw [hfil] at hmem
    cases hmem
  · rw [if_neg hfil]
    exact List.mem_filter.mpr ⟨hf, hef⟩

/-- Witness for the amended C9 at a concrete input. -/
theorem claim9_entry_heuristics_witness :
    "/r/main.js" ∈ findEntryPoints ["/r/main.js", "/r/other.js"] "/r" :=
  claim9_entry_heuristics _ _ _ (by decide) (by decide)


/-- Splitting at a separator absent from both prefixes is unambiguous. -/
theorem sep_append_inj (sep : Char) :
    ∀ (a1 a2 r1 r2 : Chars), sep ∉ a1 → sep ∉ a2 →
    a1 ++ sep :: r1 = a2 ++ sep :: r2 → a1 = a2 ∧ r1 = r2 := by
  intro a1
  induction a1 with
  | nil =>
    intro a2 r1 r2 _ h2 h
    cases a2 with
    | nil => simpa using h
    | cons b bs =>
      simp only [List.nil_append, List.cons_append, List.cons.injEq] at h
      exact absurd (h.1 ▸ List.mem_cons_self b bs) h2
  | cons a as ih =>
    intro a2 r1 r2 h1 h2 h
    cases a2 with
    | nil =>
      simp only [List.nil_append, List.cons_append, List.cons.injEq] at h
      exact absurd (h.1.symm ▸ List.mem_cons_self a as) h1
    | cons b bs =>
      simp only [List.cons_append, List.cons.injEq] at h
      obtain ⟨rfl, h⟩ := h
      obtain ⟨rfl, hr⟩ := ih bs r1 r2 (fun hm => h1 (List.mem_cons_of_mem _ hm))
        (fun hm => h2 (List.mem_cons_of_mem _ hm)) h
      exact ⟨rfl, hr⟩

/-- Character-list form of the cache key. -/
theorem getFileCacheKey_data (filePath operation hash : String) :
    (getFileCacheKey filePath operation hash).data =
      operation.data ++ ':' :: (filePath.data ++ ':' :: hash.data) := by
  unfold getFileCacheKey
  simp [String.data_append]

/-- Claim C5: the cache key is a deterministic function of the triple
`(operation, path, content hash)`; changing the content hash alone or the
operation alone always changes the key, and for colon-free operations and
hashes (the callers pass the literal operation names, and `getFileHash`
produces `md5` hex digests or the empty string, none of which contain a
colon) the whole triple is recoverable from the key, so distinct triples
yield distinct keys — in particular a stale content hash or an unrelated
operation never collides, and no other file's key is affected by a change
to one file's text. -/
theorem claim5_cache_key_injective :
    (∀ op p h1 h2 : String, h1 ≠ h2 →
      getFileCacheKey p op h1 ≠ getFileCacheKey p op h2) ∧
    (∀ op1 op2 p h : String, op1 ≠ op2 →
      getFileCacheKey p op1 h ≠ getFileCacheKey p op2 h) ∧
    (∀ op1 op2 p1 p2 h1 h2 : String,
      colonFree op1 = true → colonFree op2 = true →
      colonFree h1 = true → colonFree h2 = true →
      getFileCacheKey p1 op1 h1 = getFileCacheKey p2 op2 h2 →
      op1 = op2 ∧ p1 = p2 ∧ h1 = h2) := by
  have hdata : ∀ s t : String, s.data = t.data → s = t := fun s t h => by
    cases s
    cases t
    exact congrArg String.mk h
  have hcf : ∀ s : String, colonFree s = true → ':' ∉ s.data := by
    intro s hs hm
    unfold colonFree at hs
    rw [Bool.not_eq_true'] at hs
    have : s.data.contains ':' = true := List.elem_iff.mpr hm
    rw [this] at hs
    exact Bool.noConfusion hs
  refine ⟨?_, ?_, ?_⟩
  · intro op p h1 h2 hne heq
    have hd := congrArg String.data heq
    rw [getFileCacheKey_data, getFileCacheKey_data] at hd
    have h3 := List.append_cancel_left hd
    have h4 := (List.cons.injEq _ _ _ _).mp h3 |>.2
    have h5 := List.append_cancel_left h4
    have h6 := (List.cons.injEq _ _ _ _).mp h5 |>.2
    exact hne (hdata _ _ h6)
  · intro op1 op2 p h hne heq
    have hd := congrArg String.data heq
    rw [getFileCacheKey_data, getFileCacheKey_data] at hd
    exact hne (hdata _ _ (List.append_cancel_right hd))
  · intro op1 op2 p1 p2 h1 h2 hc1 hc2 hc3 hc4 heq
    have hd := congrArg String.data heq
    rw [getFileCacheKey_data, getFileCacheKey_data] at hd
    obtain ⟨hop, hrest⟩ :=
      sep_append_inj ':' _ _ _ _ (hcf _ hc1) (hcf _ hc2) hd
    have hrev := congrArg List.reverse hrest
    simp only [List.reverse_append, List.reverse_cons, List.append_assoc,
      List.singleton_append] at hrev
    obtain ⟨hh, hp⟩ :=
      sep_append_inj ':' _ _ _ _
        (fun hm => hcf _ hc3 (List.mem_reverse.mp hm))
        (fun hm => hcf _ hc4 (List.mem_reverse.mp hm)) hrev
    refine ⟨hdata _ _ hop, hdata _ _ ?_, hdata _ _ ?_⟩
    · exact List.reverse_injective hp
    · exact List.reverse_injective hh

/-- Witness for C5 at concrete inputs: a hash change, an operation change
and a full-triple comparison with colon-free operations and hashes. -/
theorem claim5_cache_key_injective_witness :
    (("h1" : String) ≠ "h2" ∧
      getFileCacheKey "/r/a.js" "scan" "h1" ≠ getFileCacheKey "/r/a.js" "scan" "h2") ∧
    (("scan" : String) ≠ "analyze" ∧
      getFileCacheKey "/r/a.js" "scan" "h1" ≠ getFileCacheKey "/r/a.js" "analyze" "h1") ∧
    (colonFree "scan" = true ∧ colonFree "h1" = true ∧
      (getFileCacheKey "/r/a.js" "scan" "h1" = getFileCacheKey "/r/b.js" "scan" "h2" →
        ("scan" : String) = "scan" ∧ ("/r/a.js" : String) = "/r/b.js" ∧
          ("h1" : String) = "h2")) :=
  ⟨⟨by decide, claim5_cache_key_injective.1 "scan" "/r/a.js" "h1" "h2" (by decide)⟩,
   ⟨by decide, claim5_cache_key_injective.2.1 "scan" "analyze" "/r/a.js" "h1" (by decide)⟩,
   ⟨by decide, by decide,
    fun h => claim5_cache_key_injective.2.2 "scan" "scan" "/r/a.js" "/r/b.js" "h1" "h2"
      (by decide) (by decide) (by decide) (by decide) h⟩⟩


/-- Congruence for `flatMap` under pointwise-equal functions. -/
theorem flatMap_congr_mem {α β : Type} (l : List α) (f g : α → List β)
    (h : ∀ x ∈ l, f x = g x) : l.flatMap f = l.flatMap g := by
  induction l with
  | nil => rfl
  | cons a t ih =>
    simp only [List.flatMap_cons]
    rw [h a (List.mem_cons_self a t), ih (fun x hx => h x (List.mem_cons_of_mem _ hx))]

/-- A cache-disabled step: the analyzer runs and the store is untouched. -/
theorem scanStep_nocache (now : Int) (hashFn : String → String) (cwd : String)
    (acc : List Issue × Store × Nat) (pc : String × String) :
    scanStep false now hashFn cwd acc pc =
      (acc.1 ++ computeFileIssues cwd pc.1 pc.2, acc.2.1, acc.2.2 + 1) := rfl

/-- A cache-disabled run never touches the store, executes the analyzer once
per file and appends each file's issues in enumeration order. -/
theorem scanLoop_nocache (now : Int) (hashFn : String → String) (cwd : String) :
    ∀ (files : List (String × String)) (acc : List Issue × Store × Nat),
    files.foldl (scanStep false now hashFn cwd) acc =
      (acc.1 ++ files.flatMap (fun pc => computeFileIssues cwd pc.1 pc.2),
       acc.2.1, acc.2.2 + files.length) := by
  intro files
  induction files with
  | nil => intro acc; simp
  | cons pc rest ih =>
    intro acc
    rw [List.foldl_cons, scanStep_nocache, ih]
    simp only [List.flatMap_cons, List.append_assoc, List.length_cons,
      Prod.mk.injEq]
    refine ⟨trivial, trivial, by omega⟩

/-- Lookup after a store write: the written key now maps to the new record,
other keys are unaffected. -/
theorem lookupStore_setCache (store : Store) (key k : String)
    (data : List Issue) (now : Int) :
    lookupStore (setCache store key data now) k =
      if k = key then some (some ⟨CACHE_VERSION, now, data⟩)
      else lookupStore store k := by
  unfold setCache lookupStore
  by_cases hk : k = key
  · subst hk
    rw [List.find?_cons_of_pos]
    · simp
    · simp
  · rw [if_neg hk, List.find?_cons_of_neg]
    simp only [beq_iff_eq]
    exact fun h => hk h.symm

/-- A successful cache read exposes a stored, schema-current record. -/
theorem getCache_some_lookup (store : Store) (k : String) (now maxAge : Int)
    (d : List Issue) (h : getCache store k now maxAge = some d) :
    ∃ e : CacheEntry, lookupStore store k = some (some e) ∧ e.data = d ∧
      e.version = CACHE_VERSION := by
  unfold getCache at h
  cases hl : lookupStore store k with
  | none => rw [hl] at h; exact absurd h (by simp)
  | some oe =>
    cases oe with
    | none => rw [hl] at h; exact absurd h (by simp)
    | some e =>
      rw [hl] at h
      by_cases hv : e.version = CACHE_VERSION
      · by_cases ha : now - e.timestamp > maxAge
        · simp [hv, ha] at h
        · simp [hv, ha] at h
          exact ⟨e, rfl, h, hv⟩
      · simp [hv] at h

/-- A stored, schema-current, unexpired record is returned by `getCache`. -/
theorem getCache_of_entry (store : Store) (k : String) (now maxAge : Int)
    (e : CacheEntry) (hl : lookupStore store k = some (some e))
    (hv : e.version = CACHE_VERSION) (ha : now - e.timestamp ≤ maxAge) :
    getCache store k now maxAge = some e.data := by
  unfold getCache
  rw [hl]
  have ha2 : ¬(now - e.timestamp > maxAge) := by omega
  simp [hv, ha2]

/-- A cache-enabled step on a hit: reuse the stored issues, no write, no
analyzer execution. -/
theorem scanStep_hit (t : Int) (hashFn : String → String) (cwd : String)
    (acc : List Issue) (store : Store) (n : Nat) (pc : String × String)
    (d : List Issue)
    (h : getCache store (getFileCacheKey pc.1 "scan" (hashFn pc.2)) t
      defaultMaxAge = some d) :
    scanStep true t hashFn cwd (acc, store, n) pc = (acc ++ d, store, n) := by
  unfold scanStep
  simp only [if_true]
  rw [h]

/-- A cache-enabled step on a miss: run the analyzer, store its output,
count the execution. -/
theorem scanStep_miss (t : Int) (hashFn : String → String) (cwd : String)
    (acc : List Issue) (store : Store) (n : Nat) (pc : String × String)
    (h : getCache store (getFileCacheKey pc.1 "scan" (hashFn pc.2)) t
      defaultMaxAge = none) :
    scanStep true t hashFn cwd (acc, store, n) pc =
      (acc ++ computeFileIssues cwd pc.1 pc.2,
       setCache store (getFileCacheKey pc.1 "scan" (hashFn pc.2))
         (computeFileIssues cwd pc.1 pc.2) t, n + 1) := by
  unfold scanStep
  simp only [if_true]
  rw [h]

/-- On a fresh store every stored record is a hit at its write time. -/
theorem getCache_of_fresh (t maxAge : Int) (store : Store) (k : String)
    (oe : Option CacheEntry) (hfresh : freshStore t store)
    (hl : lookupStore store k = some oe) (hm : 0 ≤ maxAge) :
    ∃ e : CacheEntry, oe = some e ∧ getCache store k t maxAge = some e.data := by
  obtain ⟨e, rfl, hv, ht⟩ := hfresh k oe hl
  exact ⟨e, rfl, getCache_of_entry store k t maxAge e hl hv (by omega)⟩

/-- A cache-enabled run over a fresh store: the store stays fresh, existing
records are preserved verbatim, every scanned file ends with a record under
its key, and the run's issue list is the concatenation, in enumeration
order, of the data of the final records under the files' keys. -/
theorem scanLoop_fresh (t : Int) (hashFn : String → String) (cwd : String) :
    ∀ (files : List (String × String)) (acc : List Issue) (n0 : Nat)
      (store : Store), freshStore t store →
    freshStore t
      (files.foldl (scanStep true t hashFn cwd) (acc, store, n0)).2.1 ∧
    (∀ k oe, lookupStore store k = some oe →
      lookupStore (files.foldl (scanStep true t hashFn cwd)
        (acc, store, n0)).2.1 k = some oe) ∧
    (∀ pc ∈ files, ∃ e : CacheEntry,
      lookupStore (files.foldl (scanStep true t hashFn cwd)
          (acc, store, n0)).2.1
        (getFileCacheKey pc.1 "scan" (hashFn pc.2)) = some (some e)) ∧
    (files.foldl (scanStep true t hashFn cwd) (acc, store, n0)).1 =
      acc ++ files.flatMap (fun pc =>
        (((lookupStore (files.foldl (scanStep true t hashFn cwd)
              (acc, store, n0)).2.1
            (getFileCacheKey pc.1 "scan" (hashFn pc.2))).getD none).map
          (fun e => e.data)).getD []) := by
  intro files
  induction files with
  | nil =>
    intro acc n0 store hfresh
    exact ⟨hfresh, fun k oe h => h, by simp, by simp⟩
  | cons pc rest ih =>
    intro acc n0 store hfresh
    cases hcache : getCache store (getFileCacheKey pc.1 "scan" (hashFn pc.2)) t
        defaultMaxAge with
    | some d =>
      obtain ⟨e, hle, hed, hev⟩ := getCache_some_lookup _ _ _ _ _ hcache
      rw [List.foldl_cons, scanStep_hit t hashFn cwd acc store n0 pc d hcache]
      obtain ⟨f1, f2, f3, f4⟩ := ih (acc ++ d) n0 store hfresh
      have hkey := f2 _ _ hle
      refine ⟨f1, f2, ?_, ?_⟩
      · intro pc2 hpc2
        rcases List.mem_cons.mp hpc2 with rfl | hpc2
        · exact ⟨e, hkey⟩
        · exact f3 pc2 hpc2
      · rw [f4, List.flatMap_cons, ← List.append_assoc]
        refine congrArg (fun l => (acc ++ l) ++ _) ?_
        rw [hkey]
        simp [hed]
    | none =>
      have hstore2 : freshStore t (setCache store
          (getFileCacheKey pc.1 "scan" (hashFn pc.2))
          (computeFileIssues cwd pc.1 pc.2) t) := by
        intro k oe hl
        rw [lookupStore_setCache] at hl
        by_cases hk : k = getFileCacheKey pc.1 "scan" (hashFn pc.2)
        · rw [if_pos hk] at hl
          exact ⟨⟨CACHE_VERSION, t, computeFileIssues cwd pc.1 pc.2⟩,
            by injection hl with h2; exact h2.symm, rfl, rfl⟩
        · rw [if_neg hk] at hl
          exact hfresh k oe hl
      rw [List.foldl_cons, scanStep_miss t hashFn cwd acc store n0 pc hcache]
      obtain ⟨f1, f2, f3, f4⟩ := ih (acc ++ computeFileIssues cwd pc.1 pc.2)
        (n0 + 1) _ hstore2
      have hpres : ∀ k oe, lookupStore store k = some oe →
          lookupStore ((rest.foldl (scanStep true t hashFn cwd)
            (acc ++ computeFileIssues cwd pc.1 pc.2,
             setCache store (getFileCacheKey pc.1 "scan" (hashFn pc.2))
               (computeFileIssues cwd pc.1 pc.2) t, n0 + 1))).2.1 k = some oe := by
        intro k oe hl
        by_cases hk : k = getFileCacheKey pc.1 "scan" (hashFn pc.2)
        · subst hk
          obtain ⟨e, -, hsome⟩ := getCache_of_fresh t defaultMaxAge store _ _
            hfresh hl (by decide)
          rw [hsome] at hcache
          exact Option.noConfusion hcache
        · refine f2 k oe ?_
          rw [lookupStore_setCache, if_neg hk]
          exact hl
      have hkey : lookupStore ((rest.foldl (scanStep true t hashFn cwd)
          (acc ++ computeFileIssues cwd pc.1 pc.2,
           setCache store (getFileCacheKey pc.1 "scan" (hashFn pc.2))
             (computeFileIssues cwd pc.1 pc.2) t, n0 + 1))).2.1
          (getFileCacheKey pc.1 "scan" (hashFn pc.2)) =
          some (some ⟨CACHE_VERSION, t, computeFileIssues cwd pc.1 pc.2⟩) := by
        refine f2 _ _ ?_
        rw [lookupStore_setCache, if_pos rfl]
      refine ⟨f1, hpres, ?_, ?_⟩
      · intro pc2 hpc2
        rcases List.mem_cons.mp hpc2 with rfl | hpc2
        · exact ⟨_, hkey⟩
        · exact f3 pc2 hpc2
      · rw [f4, List.flatMap_cons, ← List.append_assoc]
        refine congrArg (fun l => (acc ++ l) ++ _) ?_
        rw [hkey]
        simp

/-- A cache-enabled run in which every file hits: no analyzer executions, no
writes, and the issue list is the concatenation of the cached lists. -/
theorem scanLoop_allhits (t : Int) (hashFn : String → String) (cwd : String) :
    ∀ (files : List (String × String)) (acc : List Issue) (n0 : Nat)
      (store : Store),
    (∀ pc ∈ files, (getCache store
      (getFileCacheKey pc.1 "scan" (hashFn pc.2)) t defaultMaxAge).isSome) →
    files.foldl (scanStep true t hashFn cwd) (acc, store, n0) =
      (acc ++ files.flatMap (fun pc =>
        (getCache store (getFileCacheKey pc.1 "scan" (hashFn pc.2)) t
          defaultMaxAge).getD []),
       store, n0) := by
  intro files
  induction files with
  | nil => intro acc n0 store _; simp
  | cons pc rest ih =>
    intro acc n0 store hall
    have hh := hall pc (List.mem_cons_self pc rest)
    cases hcache : getCache store (getFileCacheKey pc.1 "scan" (hashFn pc.2)) t
        defaultMaxAge with
    | none => rw [hcache] at hh; exact absurd hh (by simp)
    | some d =>
      rw [List.foldl_cons, scanStep_hit t hashFn cwd acc store n0 pc d hcache,
        ih (acc ++ d) n0 store
          (fun pc2 hpc2 => hall pc2 (List.mem_cons_of_mem _ hpc2))]
      rw [List.flatMap_cons, hcache, ← List.append_assoc]
      rfl

/-- Claim C7: scanning an unchanged file tree a second time with caching
enabled (within the cache's maximum age) yields the same issue collection as
the first scan and invokes zero per-file analyzers: every issue list stored
by the first run — including an empty list for a clean file, since an empty
array is truthy in JavaScript — is returned as a cache hit on the second
run. -/
theorem claim7_scan_idempotent (t1 t2 : Int) (hashFn : String → String)
    (root cwd : String) (files : List (String × String))
    (staleIssues : List Issue) (hage : t2 - t1 ≤ defaultMaxAge) :
    (runScanIssues true t2 hashFn root cwd files
        (runScanIssues true t1 hashFn root cwd files [] staleIssues).2.1
        staleIssues).1 =
      (runScanIssues true t1 hashFn root cwd files [] staleIssues).1 ∧
    (runScanIssues true t2 hashFn root cwd files
        (runScanIssues true t1 hashFn root cwd files [] staleIssues).2.1
        staleIssues).2.2 = 0 := by
  have hfresh0 : freshStore t1 ([] : Store) := by
    intro k oe h
    simp [lookupStore] at h
  obtain ⟨f1, -, f3, f4⟩ :=
    scanLoop_fresh t1 hashFn cwd files [] 0 [] hfresh0
  have hall : ∀ pc ∈ files,
      (getCache (files.foldl (scanStep true t1 hashFn cwd) ([], [], 0)).2.1
        (getFileCacheKey pc.1 "scan" (hashFn pc.2)) t2 defaultMaxAge).isSome := by
    intro pc hpc
    obtain ⟨e, hle⟩ := f3 pc hpc
    obtain ⟨e2, he2, hv2, ht2⟩ := f1 _ _ hle
    have he3 : e = e2 := Option.some.inj he2
    rw [← he3] at hv2 ht2
    have hage2 : t2 - e.timestamp ≤ defaultMaxAge := by omega
    rw [getCache_of_entry _ _ _ _ e hle hv2 hage2]
    rfl
  have hrun2 := scanLoop_allhits t2 hashFn cwd files [] 0
    (files.foldl (scanStep true t1 hashFn cwd) ([], [], 0)).2.1 hall
  have hsame : (files.foldl (scanStep true t2 hashFn cwd)
      ([], (files.foldl (scanStep true t1 hashFn cwd) ([], [], 0)).2.1, 0)).1 =
      (files.foldl (scanStep true t1 hashFn cwd) ([], [], 0)).1 := by
    rw [hrun2, f4]
    simp only [List.nil_append]
    refine flatMap_congr_mem files _ _ ?_
    intro pc hpc
    obtain ⟨e, hle⟩ := f3 pc hpc
    obtain ⟨e2, he2, hv2, ht2⟩ := f1 _ _ hle
    have he3 : e = e2 := Option.some.inj he2
    rw [← he3] at hv2 ht2
    have hage2 : t2 - e.timestamp ≤ defaultMaxAge := by omega
    rw [getCache_of_entry _ _ _ _ e hle hv2 hage2, hle]
    rfl
  have hproj1 : ∀ (u : Bool) (now : Int) (store : Store),
      (runScanIssues u now hashFn root cwd files store staleIssues).1 =
        (scanLoop u now hashFn cwd files store).1 ++ deadFileIssues root files ++
          staleIssues := fun _ _ _ => rfl
  have hproj2 : ∀ (u : Bool) (now : Int) (store : Store),
      (runScanIssues u now hashFn root cwd files store staleIssues).2.1 =
        (scanLoop u now hashFn cwd files store).2.1 := fun _ _ _ => rfl
  have hproj3 : ∀ (u : Bool) (now : Int) (store : Store),
      (runScanIssues u now hashFn root cwd files store staleIssues).2.2 =
        (scanLoop u now hashFn cwd files store).2.2 := fun _ _ _ => rfl
  constructor
  · rw [hproj1, hproj1, hproj2]
    unfold scanLoop
    rw [hsame]
  · rw [hproj3, hproj2]
    unfold scanLoop
    rw [hrun2]

/-- Witness for C7 at a concrete input. -/
theorem claim7_scan_idempotent_witness :
    ((2000 : Int) - 1000 ≤ defaultMaxAge) ∧
    ((runScanIssues true 2000 (fun s => s) "/r" "/r" [("/r/a.js", srcImportX)]
        (runScanIssues true 1000 (fun s => s) "/r" "/r" [("/r/a.js", srcImportX)]
          [] []).2.1 []).1 =
      (runScanIssues true 1000 (fun s => s) "/r" "/r" [("/r/a.js", srcImportX)]
        [] []).1 ∧
    (runScanIssues true 2000 (fun s => s) "/r" "/r" [("/r/a.js", srcImportX)]
        (runScanIssues true 1000 (fun s => s) "/r" "/r" [("/r/a.js", srcImportX)]
          [] []).2.1 []).2.2 = 0) :=
  ⟨by decide,
    claim7_scan_idempotent 1000 2000 (fun s => s) "/r" "/r"
      [("/r/a.js", srcImportX)] [] (by decide)⟩


/-- Shape of a cache-disabled run: analyzer outputs per file in enumeration
order, then dead-file issues, then stale-dependency issues. -/
theorem runScan_nocache_shape (now : Int) (hashFn : String → String)
    (root cwd : String) (files : List (String × String)) (store : Store)
    (staleIssues : List Issue) :
    (runScanIssues false now hashFn root cwd files store staleIssues).1 =
      files.flatMap (fun pc => computeFileIssues cwd pc.1 pc.2) ++
        deadFileIssues root files ++ staleIssues := by
  show (scanLoop false now hashFn cwd files store).1 ++ _ ++ _ = _
  unfold scanLoop
  rw [scanLoop_nocache]
  simp

/-- Claim C3 as amended: `runScan` applies no sort; the report's issue list
is the per-file unused-import issues in discovery enumeration order,
followed by the dead-file issues, followed by the stale-dependency issues
(shown for a cache-disabled run, where the per-file issues are the analyzer
outputs themselves). -/
theorem claim3_issue_order (now : Int) (hashFn : String → String)
    (root cwd : String) (files : List (String × String)) (store : Store)
    (staleIssues : List Issue) :
    (runScanIssues false now hashFn root cwd files store staleIssues).1 =
      files.flatMap (fun pc => computeFileIssues cwd pc.1 pc.2) ++
        deadFileIssues root files ++ staleIssues :=
  runScan_nocache_shape now hashFn root cwd files store staleIssues

/-- Counterexample to claim C3 as stated: with discovery enumerating `b.js`
before `a.js` the report's issues carry the files `[b.js, a.js]`, which is
not sorted by file path; reversing the discovery order changes the issue
list, so the ordering depends on the discovery collaborator's enumeration
order. -/
theorem claim3_issue_order_cex :
    ((runScanIssues false 0 (fun s => s) "/r" "/r"
        [("/r/b.js", srcImportX), ("/r/a.js", srcImportY)] [] []).1).map
      Issue.file = ["b.js", "a.js"] ∧
    ¬ List.Pairwise (fun i1 i2 : Issue => charsLe i1.file.data i2.file.data = true)
      ((runScanIssues false 0 (fun s => s) "/r" "/r"
        [("/r/b.js", srcImportX), ("/r/a.js", srcImportY)] [] []).1) ∧
    (runScanIssues false 0 (fun s => s) "/r" "/r"
        [("/r/b.js", srcImportX), ("/r/a.js", srcImportY)] [] []).1 ≠
      (runScanIssues false 0 (fun s => s) "/r" "/r"
        [("/r/a.js", srcImportY), ("/r/b.js", srcImportX)] [] []).1 := by
  have hd1 : deadFileIssues "/r"
      [("/r/b.js", srcImportX), ("/r/a.js", srcImportY)] = [] := by
    unfold deadFileIssues
    rw [(noEntry_fallback_aux _ _ _ (by decide)).2]
    rfl
  have hd2 : deadFileIssues "/r"
      [("/r/a.js", srcImportY), ("/r/b.js", srcImportX)] = [] := by
    unfold deadFileIssues
    rw [(noEntry_fallback_aux _ _ _ (by decide)).2]
    rfl
  have h1 := runScan_nocache_shape 0 (fun s => s) "/r" "/r"
    [("/r/b.js", srcImportX), ("/r/a.js", srcImportY)] [] []
  have h2 := runScan_nocache_shape 0 (fun s => s) "/r" "/r"
    [("/r/a.js", srcImportY), ("/r/b.js", srcImportX)] [] []
  rw [hd1] at h1
  rw [hd2] at h2
  refine ⟨?_, ?_, ?_⟩
  · rw [h1]
    decide
  · rw [h1]
    decide
  · rw [h1, h2]
    decide


/-- Claim C2: for a file set whose import graph contains a cycle A→B→A with
no entry point reaching into the cycle, the breadth-first traversal of
`detectDeadFiles` terminates — `bfsAux` is a total function, each file being
added to the visited set (and hence enqueued) at most once under the
`used.has` guard — and classifies both A and B as dead. -/
theorem claim2_cycle_dead (files : List String) (root : String)
    (read : String → Option String) (A B : String)
    (hA : A ∈ files) (hB : B ∈ files)
    (hAB : B ∈ graphLookup (buildGraph files read) A)
    (hBA : A ∈ graphLookup (buildGraph files read) B)
    (hnr1 : ¬ ReachableFrom (buildGraph files read) (findEntryPoints files root) A)
    (hnr2 : ¬ ReachableFrom (buildGraph files read) (findEntryPoints files root) B) :
    relativePath root A ∈ detectDeadFiles files root read ∧
    relativePath root B ∈ detectDeadFiles files root read := by
  have hsound := bfsAux_sound (buildGraph files read)
    (ReachableFrom (buildGraph files read) (findEntryPoints files root))
    (fun b c hb hc => ReachableFrom.step hb hc)
    (findEntryPoints files root) (findEntryPoints files root)
    (fun u hu => ReachableFrom.base hu) (fun q hq => ReachableFrom.base hq)
  have hform : detectDeadFiles files root read =
      (files.filter (fun f => !(bfsAux (buildGraph files read)
        (findEntryPoints files root) (findEntryPoints files root)).contains f)).map
        (relativePath root) := rfl
  rw [hform]
  constructor
  · refine List.mem_map_of_mem _ (List.mem_filter.mpr ⟨hA, ?_⟩)
    have hnA : A ∉ bfsAux (buildGraph files read) (findEntryPoints files root)
        (findEntryPoints files root) := fun hmem => hnr1 (hsound A hmem)
    simpa using hnA
  · refine List.mem_map_of_mem _ (List.mem_filter.mpr ⟨hB, ?_⟩)
    have hnB : B ∉ bfsAux (buildGraph files read) (findEntryPoints files root)
        (findEntryPoints files root) := fun hmem => hnr2 (hsound B hmem)
    simpa using hnB

/-- Witness for C2 at a concrete input: an entry file under `cli/` and a
two-file cycle `a.js ↔ b.js` unreachable from it. -/
theorem claim2_cycle_dead_witness :
    ("/r/a.js" ∈ (["/r/cli/run.js", "/r/a.js", "/r/b.js"] : List String)) ∧
    ("/r/b.js" ∈ (["/r/cli/run.js", "/r/a.js", "/r/b.js"] : List String)) ∧
    ("/r/b.js" ∈ graphLookup
      (buildGraph ["/r/cli/run.js", "/r/a.js", "/r/b.js"] cycleRead) "/r/a.js") ∧
    ("/r/a.js" ∈ graphLookup
      (buildGraph ["/r/cli/run.js", "/r/a.js", "/r/b.js"] cycleRead) "/r/b.js") ∧
    (relativePath "/r" "/r/a.js" ∈
      detectDeadFiles ["/r/cli/run.js", "/r/a.js", "/r/b.js"] "/r" cycleRead ∧
     relativePath "/r" "/r/b.js" ∈
      detectDeadFiles ["/r/cli/run.js", "/r/a.js", "/r/b.js"] "/r" cycleRead) := by
  have hchar : ∀ x, ReachableFrom
      (buildGraph ["/r/cli/run.js", "/r/a.js", "/r/b.js"] cycleRead)
      (findEntryPoints ["/r/cli/run.js", "/r/a.js", "/r/b.js"] "/r") x →
      x = "/r/cli/run.js" := by
    intro x hx
    induction hx with
    | base hmem =>
      have hents : findEntryPoints ["/r/cli/run.js", "/r/a.js", "/r/b.js"] "/r" =
          ["/r/cli/run.js"] := by decide
      rw [hents] at hmem
      simpa using hmem
    | step hb hc ih =>
      rw [ih] at hc
      have hrun : graphLookup
          (buildGraph ["/r/cli/run.js", "/r/a.js", "/r/b.js"] cycleRead)
          "/r/cli/run.js" = [] := by decide
      rw [hrun] at hc
      cases hc
  refine ⟨by decide, by decide, by decide, by decide, ?_⟩
  exact claim2_cycle_dead _ _ cycleRead _ _ (by decide) (by decide) (by decide)
    (by decide)
    (fun h => by have := hchar _ h; exact absurd this (by decide))
    (fun h => by have := hchar _ h; exact absurd this (by decide))


/-- The whitespace run never exceeds the input length. -/
theorem wsRun_le (s : Chars) : wsRun s ≤ s.length := by
  induction s with
  | nil => simp [wsRun]
  | cons c rest ih =>
    rw [wsRun]
    split
    · simp only [List.length_cons]
      omega
    · simp only [List.length_cons]
      omega

/-- A successful import-pattern match exhibits the literal `import` as a
substring. -/
theorem matchImportAt_substr (ts : Bool) (s : Chars) (v : Nat × Nat × Nat)
    (h : matchImportAt ts s = some v) :
    ∃ i, i ≤ s.length ∧ (s.drop i).take 6 = ['i', 'm', 'p', 'o', 'r', 't'] := by
  by_cases hc : (s.drop (wsRun s)).take 6 = ['i', 'm', 'p', 'o', 'r', 't']
  · exact ⟨wsRun s, wsRun_le s, hc⟩
  · exfalso
    unfold matchImportAt at h
    rw [if_neg hc] at h
    exact Option.noConfusion h

/-- A substring-free list stays substring-free after dropping its head. -/
theorem hasSubstr_tail (pat : Chars) (c : Char) (t : Chars)
    (h : hasSubstr pat (c :: t) = false) : hasSubstr pat t = false := by
  cases hh : hasSubstr pat t with
  | false => rfl
  | true =>
    exfalso
    unfold hasSubstr at hh h
    rw [List.any_eq_true] at hh
    obtain ⟨p, hp, hpp⟩ := hh
    rw [List.any_eq_false] at h
    refine h (p + 1) ?_ ?_
    · rw [List.mem_range] at hp ⊢
      simp only [List.length_cons]
      omega
    · simpa using hpp

/-- An occurrence within bounds pins the substring equality. -/
theorem hasSubstr_false_no_take (pat s : Chars) (h : hasSubstr pat s = false)
    (i : Nat) (hi : i ≤ s.length) : (s.drop i).take pat.length ≠ pat := by
  unfold hasSubstr at h
  rw [List.any_eq_false] at h
  have := h i (by rw [List.mem_range]; omega)
  simpa using this

/-- On an input free of the literal `import` the exec loop finds no match. -/
theorem noImport_noMatches (ts : Bool) :
    ∀ (s : Chars) (ls : Bool) (pos : Nat),
    hasSubstr ['i', 'm', 'p', 'o', 'r', 't'] s = false →
    importMatchesAux ts 0 ls pos s = [] := by
  intro s
  induction s with
  | nil => intro ls pos _; rfl
  | cons c rest ih =>
    intro ls pos hsub
    have hrest := hasSubstr_tail _ _ _ hsub
    have hnone : matchImportAt ts (c :: rest) = none := by
      cases hm : matchImportAt ts (c :: rest) with
      | none => rfl
      | some v =>
        obtain ⟨i, hi, htake⟩ := matchImportAt_substr ts _ v hm
        exact absurd htake
          (by simpa using hasSubstr_false_no_take _ _ hsub i hi)
    cases ls with
    | false => exact ih (c == '\n') (pos + 1) hrest
    | true =>
      rw [show importMatchesAux ts 0 true pos (c :: rest) =
        (match matchImportAt ts (c :: rest) with
         | some (len, go, gl) =>
           (⟨pos, len, ((c :: rest).drop go).take gl⟩ : ImportMatch) ::
             importMatchesAux ts (len - 1) (c == '\n') (pos + 1) rest
         | none => importMatchesAux ts 0 (c == '\n') (pos + 1) rest) from rfl,
        hnone]
      exact ih (c == '\n') (pos + 1) hrest

/-- Shifting the word-character test across a head character. -/
theorem wordCharAt_cons_succ (c : Char) (r : Chars) (q : Nat) :
    wordCharAt (c :: r) (q + 1) = wordCharAt r q := by
  simp [wordCharAt]

/-- Shifting a word boundary across a non-word head character. -/
theorem boundaryAt_cons_succ (c : Char) (r : Chars)
    (hc : isWordChar c = false) (q : Nat) :
    boundaryAt (c :: r) (q + 1) = boundaryAt r q := by
  cases q with
  | zero => simp [boundaryAt, wordCharAt, hc]
  | succ q2 =>
    simp only [boundaryAt, Nat.add_eq_zero, Nat.succ_ne_zero, and_false,
      if_false, Nat.add_sub_cancel, Nat.succ_ne_zero]
    rw [wordCharAt_cons_succ, wordCharAt_cons_succ]

/-- Shifting a word-bounded occurrence across a non-word head character. -/
theorem matchesAt_cons_succ (id : Chars) (c : Char) (r : Chars)
    (hc : isWordChar c = false) (p : Nat) :
    matchesAt id (c :: r) (p + 1) = matchesAt id r p := by
  unfold matchesAt
  rw [List.drop_succ_cons, boundaryAt_cons_succ c r hc p,
    show p + 1 + id.length = (p + id.length) + 1 from by omega,
    boundaryAt_cons_succ c r hc (p + id.length)]

/-- A word-initial identifier cannot match at a non-word head character. -/
theorem matchesAt_cons_zero (h : Char) (t : Chars) (c : Char) (r : Chars)
    (hc : isWordChar c = false) (hh : isWordChar h = true) :
    matchesAt (h :: t) (c :: r) 0 = false := by
  have hne : c ≠ h := fun he => by rw [he, hh] at hc; exact Bool.noConfusion hc
  unfold matchesAt
  have hsub : decide (((c :: r).drop 0).take (h :: t).length = h :: t) = false := by
    simp only [List.drop_zero, List.length_cons, List.take_succ_cons,
      decide_eq_false_iff_not, List.cons.injEq, not_and]
    exact fun he => absurd he hne
  rw [hsub]
  simp

/-- Prepending a non-word character does not affect whether a word-initial
identifier occurs word-bounded. -/
theorem wordOccurs_cons_nonword (c : Char) (r : Chars) (h : Char) (t : Chars)
    (hc : isWordChar c = false) (hh : isWordChar h = true) :
    wordOccurs (h :: t) (c :: r) = wordOccurs (h :: t) r := by
  unfold wordOccurs
  simp only [List.length_cons]
  rw [show r.length + 1 + 1 = (r.length + 1) + 1 from rfl,
    List.range_succ_eq_map, List.any_cons,
    matchesAt_cons_zero h t c r hc hh, Bool.false_or, List.any_map]
  exact congrArg (List.any (List.range (r.length + 1)))
    (funext fun p => by
      simp only [Function.comp]
      exact matchesAt_cons_succ (h :: t) c r hc p)

/-- Evaluation of the unused-import core on a file that begins with the
statement `import { join } from 'node:path'` and continues with text free of
the literal `import`: the result is `[join]` when `join` occurs nowhere else
as a whole word, and `[]` when it does. -/
theorem detectUnusedCore_join (rest : Chars)
    (hno : hasSubstr ['i', 'm', 'p', 'o', 'r', 't'] rest = false) :
    detectUnusedCore false (joinImportStmt ++ rest) =
      (if wordOccurs joinChars rest then [] else [joinChars]) := by
  have hstep : importMatches false (joinImportStmt ++ rest) =
      ⟨0, 32, ['{', ' ', 'j', 'o', 'i', 'n', ' ', '}']⟩ ::
        importMatchesAux false 0 false 32 rest := rfl
  have hrest := noImport_noMatches false rest false 32 hno
  have hcore : detectUnusedCore false (joinImportStmt ++ rest) =
      processMatch false (joinImportStmt ++ rest)
        ⟨0, 32, ['{', ' ', 'j', 'o', 'i', 'n', ' ', '}']⟩ ++ [] := by
    unfold detectUnusedCore
    rw [hstep, hrest]
    rfl
  have hproc : processMatch false (joinImportStmt ++ rest)
      ⟨0, 32, ['{', ' ', 'j', 'o', 'i', 'n', ' ', '}']⟩ =
      (if isUsed (joinImportStmt ++ rest) joinChars 0 32 then []
       else [joinChars]) ++ [] := rfl
  have hiu : isUsed (joinImportStmt ++ rest) joinChars 0 32 =
      wordOccurs joinChars ('\n' :: rest) := rfl
  have hshift : wordOccurs joinChars ('\n' :: rest) =
      wordOccurs joinChars rest :=
    wordOccurs_cons_nonword '\n' rest 'j' ['o', 'i', 'n'] (by decide) (by decide)
  rw [hcore, hproc, List.append_nil, List.append_nil, hiu, hshift]

/-- Claim C4: a JavaScript file whose text is the statement
`import { join } from 'node:path'` followed by arbitrary text containing no
further import statement — formalized as text free of the literal `import` —
yields exactly `[join]` from `detectUnusedImports` and exactly one
`unused_import` issue with symbol `join` from the per-file pipeline when
`join` occurs nowhere else as a whole word; when the remaining text uses
`join` (a whole-word occurrence, e.g. `join(...)`), it yields no entry for
`join`, and no issue. -/
theorem claim4_join_unused (rest : Chars)
    (hno : hasSubstr ['i', 'm', 'p', 'o', 'r', 't'] rest = false) :
    (wordOccurs joinChars rest = false →
      detectUnusedImports (String.mk (joinImportStmt ++ rest)) = ["join"] ∧
      computeFileIssues "/r" "/r/f.js" (String.mk (joinImportStmt ++ rest)) =
        [{ type := "unused_import", file := "f.js", symbol := some "join",
           language := some "javascript" }]) ∧
    (wordOccurs joinChars rest = true →
      detectUnusedImports (String.mk (joinImportStmt ++ rest)) = [] ∧
      computeFileIssues "/r" "/r/f.js" (String.mk (joinImportStmt ++ rest)) =
        []) := by
  have hcore := detectUnusedCore_join rest hno
  have hdu : detectUnusedImports (String.mk (joinImportStmt ++ rest)) =
      (detectUnusedCore false (joinImportStmt ++ rest)).map String.mk := rfl
  have hcf : computeFileIssues "/r" "/r/f.js"
      (String.mk (joinImportStmt ++ rest)) =
      (detectUnusedImports (String.mk (joinImportStmt ++ rest))).map
        (fun sym => { type := "unused_import", file := "f.js",
                      symbol := some sym, language := some "javascript" }) := rfl
  constructor
  · intro hw
    have h1 : detectUnusedImports (String.mk (joinImportStmt ++ rest)) =
        ["join"] := by
      rw [hdu, hcore, hw]
      rfl
    exact ⟨h1, by rw [hcf, h1]; rfl⟩
  · intro hw
    have h1 : detectUnusedImports (String.mk (joinImportStmt ++ rest)) = [] := by
      rw [hdu, hcore, hw]
      rfl
    exact ⟨h1, by rw [hcf, h1]; rfl⟩

/-- Witness for C4 at concrete inputs: a body that never mentions `join` and
a body that calls `join(a, b)`. -/
theorem claim4_join_unused_witness :
    (hasSubstr ['i', 'm', 'p', 'o', 'r', 't']
      ['\n', 'c', 'o', 'n', 's', 't', ' ', 'a', ' ', '=', ' ', '1'] = false ∧
     hasSubstr ['i', 'm', 'p', 'o', 'r', 't']
      ['\n', 'j', 'o', 'i', 'n', '(', 'a', ')'] = false) ∧
    (wordOccurs joinChars
      ['\n', 'c', 'o', 'n', 's', 't', ' ', 'a', ' ', '=', ' ', '1'] = false ∧
     detectUnusedImports (String.mk (joinImportStmt ++
       ['\n', 'c', 'o', 'n', 's', 't', ' ', 'a', ' ', '=', ' ', '1'])) =
       ["join"]) ∧
    (wordOccurs joinChars ['\n', 'j', 'o', 'i', 'n', '(', 'a', ')'] = true ∧
     detectUnusedImports (String.mk (joinImportStmt ++
       ['\n', 'j', 'o', 'i', 'n', '(', 'a', ')'])) = []) :=
  ⟨⟨by decide, by decide⟩,
   ⟨by decide,
    ((claim4_join_unused _ (by decide)).1 (by decide)).1⟩,
   ⟨by decide,
    ((claim4_join_unused _ (by decide)).2 (by decide)).1⟩⟩


/-- A successful import-pattern match consumes at least one character. -/
theorem matchImportAt_len_pos (ts : Bool) (s : Chars) (len go gl : Nat)
    (h : matchImportAt ts s = some (len, go, gl)) : 1 ≤ len := by
  unfold matchImportAt at h
  dsimp only [] at h
  by_cases hc : ((s.drop (wsRun s)).take 6) = ['i', 'm', 'p', 'o', 'r', 't']
  · rw [if_pos hc] at h
    cases ht : importTail ts ((s.drop (wsRun s)).drop 6)
        (wsRun ((s.drop (wsRun s)).drop 6)) with
    | none => rw [ht] at h; exact Option.noConfusion h
    | some q =>
      obtain ⟨b, t, k, n⟩ := q
      rw [ht] at h
      simp only [Option.some.injEq, Prod.mk.injEq] at h
      omega
  · rw [if_neg hc] at h
    exact Option.noConfusion h

/-- Every match of the exec loop lies at or beyond the scan position plus
the pending skip. -/
theorem importMatchesAux_index_ge (ts : Bool) :
    ∀ (s : Chars) (skip : Nat) (ls : Bool) (pos : Nat) (m : ImportMatch),
    m ∈ importMatchesAux ts skip ls pos s → pos + skip ≤ m.index := by
  intro s
  induction s with
  | nil =>
    intro skip ls pos m hm
    cases skip with
    | zero => exact absurd hm (List.not_mem_nil m)
    | succ sk => exact absurd hm (List.not_mem_nil m)
  | cons c rest ih =>
    intro skip ls pos m hm
    cases skip with
    | succ sk =>
      have := ih sk (c == '\n') (pos + 1) m hm
      omega
    | zero =>
      cases ls with
      | false =>
        have := ih 0 (c == '\n') (pos + 1) m hm
        omega
      | true =>
        cases hmi : matchImportAt ts (c :: rest) with
        | none =>
          rw [show importMatchesAux ts 0 true pos (c :: rest) =
            (match matchImportAt ts (c :: rest) with
             | some (len, go, gl) =>
               (⟨pos, len, ((c :: rest).drop go).take gl⟩ : ImportMatch) ::
                 importMatchesAux ts (len - 1) (c == '\n') (pos + 1) rest
             | none => importMatchesAux ts 0 (c == '\n') (pos + 1) rest)
            from rfl, hmi] at hm
          have := ih 0 (c == '\n') (pos + 1) m hm
          omega
        | some v =>
          obtain ⟨len, go, gl⟩ := v
          rw [show importMatchesAux ts 0 true pos (c :: rest) =
            (match matchImportAt ts (c :: rest) with
             | some (len, go, gl) =>
               (⟨pos, len, ((c :: rest).drop go).take gl⟩ : ImportMatch) ::
                 importMatchesAux ts (len - 1) (c == '\n') (pos + 1) rest
             | none => importMatchesAux ts 0 (c == '\n') (pos + 1) rest)
            from rfl, hmi] at hm
          rcases List.mem_cons.mp hm with rfl | hm
          · show pos + 0 ≤ pos
            omega
          · have := ih (len - 1) (c == '\n') (pos + 1) m hm
            omega

/-- The matches of the exec loop are pairwise disjoint, in scan order. -/
theorem importMatchesAux_pairwise (ts : Bool) :
    ∀ (s : Chars) (skip : Nat) (ls : Bool) (pos : Nat),
    (importMatchesAux ts skip ls pos s).Pairwise
      (fun m m2 => m.index + m.len ≤ m2.index) := by
  intro s
  induction s with
  | nil =>
    intro skip ls pos
    cases skip with
    | zero => exact List.Pairwise.nil
    | succ sk => exact List.Pairwise.nil
  | cons c rest ih =>
    intro skip ls pos
    cases skip with
    | succ sk => exact ih sk (c == '\n') (pos + 1)
    | zero =>
      cases ls with
      | false => exact ih 0 (c == '\n') (pos + 1)
      | true =>
        cases hmi : matchImportAt ts (c :: rest) with
        | none =>
          rw [show importMatchesAux ts 0 true pos (c :: rest) =
            (match matchImportAt ts (c :: rest) with
             | some (len, go, gl) =>
               (⟨pos, len, ((c :: rest).drop go).take gl⟩ : ImportMatch) ::
                 importMatchesAux ts (len - 1) (c == '\n') (pos + 1) rest
             | none => importMatchesAux ts 0 (c == '\n') (pos + 1) rest)
            from rfl, hmi]
          exact ih 0 (c == '\n') (pos + 1)
        | some v =>
          obtain ⟨len, go, gl⟩ := v
          rw [show importMatchesAux ts 0 true pos (c :: rest) =
            (match matchImportAt ts (c :: rest) with
             | some (len, go, gl) =>
               (⟨pos, len, ((c :: rest).drop go).take gl⟩ : ImportMatch) ::
                 importMatchesAux ts (len - 1) (c == '\n') (pos + 1) rest
             | none => importMatchesAux ts 0 (c == '\n') (pos + 1) rest)
            from rfl, hmi]
          refine List.Pairwise.cons ?_ (ih (len - 1) (c == '\n') (pos + 1))
          intro m2 hm2
          have hge := importMatchesAux_index_ge ts rest (len - 1) (c == '\n')
            (pos + 1) m2 hm2
          have hpos := matchImportAt_len_pos ts (c :: rest) len go gl hmi
          show pos + len ≤ m2.index
          omega

/-- A word-bounded occurrence of a non-empty identifier lies within the text. -/
theorem matchesAt_le (id code : Chars) (p : Nat) (hid : 1 ≤ id.length)
    (h : matchesAt id code p = true) : p + id.length ≤ code.length := by
  simp only [matchesAt, Bool.and_eq_true, decide_eq_true_eq] at h
  have hl := congrArg List.length h.1.1
  simp only [List.length_take, List.length_drop] at hl
  omega

/-- Two windows whose positions carry the same optional characters cut the
same segment. -/
theorem take_drop_congr (body code : Chars) (p2 p n : Nat)
    (htr : ∀ j, j < n → body[p2 + j]? = code[p + j]?) :
    (body.drop p2).take n = (code.drop p).take n := by
  apply List.ext_getElem?
  intro j
  by_cases hj : j < n
  · rw [List.getElem?_take, if_pos hj, List.getElem?_take, if_pos hj,
      List.getElem?_drop, List.getElem?_drop, htr j hj]
  · rw [List.getElem?_take, if_neg hj, List.getElem?_take, if_neg hj]

/-- Positions strictly before the removed span read the original text. -/
theorem body_getElem_left (code : Chars) (i len q : Nat) (hq : q < i)
    (hqc : q < code.length) :
    (code.take i ++ '\n' :: code.drop (i + len))[q]? = code[q]? := by
  rw [List.getElem?_append, if_pos (by rw [List.length_take]; omega),
    List.getElem?_take, if_pos hq]

/-- Word-character status is preserved strictly before the removed span. -/
theorem body_wordCharAt_left (code : Chars) (i len q : Nat) (hq : q < i) :
    wordCharAt (code.take i ++ '\n' :: code.drop (i + len)) q = wordCharAt code q := by
  by_cases hqc : q < code.length
  · unfold wordCharAt
    rw [body_getElem_left code i len q hq hqc]
  · have hlen : (code.take i).length = code.length := by
      rw [List.length_take]; omega
    have hdrop : code.drop (i + len) = [] := List.drop_eq_nil_of_le (by omega)
    unfold wordCharAt
    rw [List.getElem?_append, if_neg (by rw [hlen]; omega), hlen, hdrop,
      List.getElem?_eq_none (l := code) (by omega)]
    cases hqq : q - code.length with
    | zero => decide
    | succ k => rw [List.getElem?_cons_succ, List.getElem?_nil]

/-- Positions past the removed span read the original text shifted by the
span length minus the replacing newline. -/
theorem body_getElem_right (code : Chars) (i len d : Nat) (hi : i ≤ code.length) :
    (code.take i ++ '\n' :: code.drop (i + len))[i + 1 + d]? = code[i + len + d]? := by
  have hlen : (code.take i).length = i := by rw [List.length_take]; omega
  rw [List.getElem?_append, if_neg (by rw [hlen]; omega), hlen,
    show i + 1 + d - i = d + 1 from by omega, List.getElem?_cons_succ,
    List.getElem?_drop]

/-- Word-character status at positions past the removed span. -/
theorem body_wordCharAt_right (code : Chars) (i len d : Nat) (hi : i ≤ code.length) :
    wordCharAt (code.take i ++ '\n' :: code.drop (i + len)) (i + 1 + d) =
      wordCharAt code (i + len + d) := by
  unfold wordCharAt
  rw [body_getElem_right code i len d hi]

/-- The word boundary test transfers along equal word-character statuses of
the two adjacent positions (away from position zero). -/
theorem boundary_congr (body code : Chars) (q2 q : Nat) (h2 : q2 ≠ 0) (h : q ≠ 0)
    (ha : wordCharAt body (q2 - 1) = wordCharAt code (q - 1))
    (hb : wordCharAt body q2 = wordCharAt code q) :
    boundaryAt body q2 = boundaryAt code q := by
  unfold boundaryAt
  rw [if_neg h2, if_neg h, ha, hb]

/-- A word-bounded occurrence strictly before the removed span survives the
span removal of `isUsed` at its own position. -/
theorem matchesAt_left (code id : Chars) (i len p : Nat) (h1 : 1 ≤ p)
    (hin : p + id.length < i) (hc : p + id.length ≤ code.length)
    (hm : matchesAt id code p = true) :
    matchesAt id (code.take i ++ '\n' :: code.drop (i + len)) p = true := by
  simp only [matchesAt, Bool.and_eq_true, decide_eq_true_eq] at hm ⊢
  obtain ⟨⟨hs, hb1⟩, hb2⟩ := hm
  refine ⟨⟨?_, ?_⟩, ?_⟩
  · rw [take_drop_congr _ code p p id.length
      (fun j hj => body_getElem_left code i len (p + j) (by omega) (by omega)), hs]
  · rw [boundary_congr _ code p p (by omega) (by omega)
      (body_wordCharAt_left code i len (p - 1) (by omega))
      (body_wordCharAt_left code i len p (by omega))]
    exact hb1
  · rw [boundary_congr _ code (p + id.length) (p + id.length) (by omega) (by omega)
      (body_wordCharAt_left code i len (p + id.length - 1) (by omega))
      (body_wordCharAt_left code i len (p + id.length) (by omega))]
    exact hb2

/-- A word-bounded occurrence strictly after the removed span survives the
span removal of `isUsed`, at the position shifted by the removal. -/
theorem matchesAt_right (code id : Chars) (i len p : Nat)
    (hp : i + len + 1 ≤ p) (hc : p + id.length ≤ code.length)
    (hm : matchesAt id code p = true) :
    matchesAt id (code.take i ++ '\n' :: code.drop (i + len)) (p - len + 1) = true := by
  have hi : i ≤ code.length := by omega
  obtain ⟨d0, rfl⟩ : ∃ d, p = i + len + d := ⟨p - (i + len), by omega⟩
  rw [show i + len + d0 - len + 1 = i + 1 + d0 from by omega]
  simp only [matchesAt, Bool.and_eq_true, decide_eq_true_eq] at hm ⊢
  obtain ⟨⟨hs, hb1⟩, hb2⟩ := hm
  refine ⟨⟨?_, ?_⟩, ?_⟩
  · rw [take_drop_congr _ code (i + 1 + d0) (i + len + d0) id.length
      (fun j hj => by
        rw [show i + 1 + d0 + j = i + 1 + (d0 + j) from by omega,
          body_getElem_right code i len (d0 + j) hi,
          show i + len + (d0 + j) = i + len + d0 + j from by omega]), hs]
  · rw [boundary_congr _ code (i + 1 + d0) (i + len + d0) (by omega) (by omega)
      (by rw [show i + 1 + d0 - 1 = i + 1 + (d0 - 1) from by omega,
          body_wordCharAt_right code i len (d0 - 1) hi,
          show i + len + (d0 - 1) = i + len + d0 - 1 from by omega])
      (body_wordCharAt_right code i len d0 hi)]
    exact hb1
  · rw [boundary_congr _ code (i + 1 + d0 + id.length) (i + len + d0 + id.length)
      (by omega) (by omega)
      (by rw [show i + 1 + d0 + id.length - 1 = i + 1 + (d0 + id.length - 1) from by omega,
          body_wordCharAt_right code i len (d0 + id.length - 1) hi,
          show i + len + (d0 + id.length - 1) = i + len + d0 + id.length - 1 from by omega])
      (by rw [show i + 1 + d0 + id.length = i + 1 + (d0 + id.length) from by omega,
          body_wordCharAt_right code i len (d0 + id.length) hi,
          show i + len + (d0 + id.length) = i + len + d0 + id.length from by omega])]
    exact hb2

/-- A word-bounded occurrence of the identifier wholly outside the span
`[i, i + len)` (with one spare position on the inner side) makes `isUsed`
succeed for that span: the occurrence persists in the text with the span
removed. -/
theorem isUsed_outside (code id : Chars) (i len p : Nat) (hid : 1 ≤ id.length)
    (h1 : 1 ≤ p) (hm : matchesAt id code p = true)
    (hcase : p + id.length + 1 ≤ i ∨ i + len + 1 ≤ p) :
    isUsed code id i len = true := by
  have hc := matchesAt_le id code p hid hm
  unfold isUsed wordOccurs
  rw [List.any_eq_true]
  rcases hcase with hL | hR
  · refine ⟨p, List.mem_range.mpr ?_, matchesAt_left code id i len p h1 (by omega) hc hm⟩
    simp only [List.length_append, List.length_take, List.length_cons, List.length_drop]
    omega
  · refine ⟨p - len + 1, List.mem_range.mpr ?_,
      matchesAt_right code id i len p hR hc hm⟩
    simp only [List.length_append, List.length_take, List.length_cons, List.length_drop]
    omega

/-- Membership in a push guarded by an `isUsed` test forces the test to have
failed for the pushed name. -/
theorem mem_guard {code x name : Chars} {i l : Nat}
    (h : name ∈ (if isUsed code x i l then ([] : List Chars) else [x])) :
    isUsed code name i l = false := by
  by_cases hx : isUsed code x i l = true
  · rw [if_pos hx] at h
    exact absurd h (List.not_mem_nil name)
  · rw [if_neg hx] at h
    rcases List.mem_singleton.mp h with rfl
    exact Bool.eq_false_iff.mpr hx

/-- Every name pushed by one iteration of the exec-loop body fails the
`isUsed` test against that iteration's own match span. -/
theorem processMatch_guard (ts : Bool) (code : Chars) (m : ImportMatch)
    (name : Chars) (h : name ∈ processMatch ts code m) :
    isUsed code name m.index m.len = false := by
  unfold processMatch at h
  dsimp only [] at h
  split at h
  · exact mem_guard h
  · rcases List.mem_append.mp h with h2 | h2
    · repeat' split at h2
      all_goals
        first
        | exact absurd h2 (List.not_mem_nil name)
        | exact mem_guard h2
        | (rcases List.mem_singleton.mp h2 with rfl
           exact Bool.eq_false_iff.mpr (by assumption))
    · split at h2
      · rcases List.mem_flatMap.mp h2 with ⟨raw, hraw, h3⟩
        exact mem_guard h3
      · exact absurd h2 (List.not_mem_nil name)

/-- Two distinct matches of the exec loop occupy disjoint spans. -/
theorem importMatches_disjoint (ts : Bool) (code : Chars) (a b : ImportMatch)
    (ha : a ∈ importMatches ts code) (hb : b ∈ importMatches ts code)
    (hne : a ≠ b) :
    a.index + a.len ≤ b.index ∨ b.index + b.len ≤ a.index := by
  have hpw : (importMatches ts code).Pairwise
      (fun m m2 => m.index + m.len ≤ m2.index) :=
    importMatchesAux_pairwise ts code 0 true 0
  have hpw2 : (importMatches ts code).Pairwise
      (fun m m2 => m.index + m.len ≤ m2.index ∨ m2.index + m2.len ≤ m.index) :=
    hpw.imp (fun h => Or.inl h)
  exact hpw2.forall (fun _ _ h => h.symm) ha hb hne

/-- Unpacking of an interior word-bounded occurrence. -/
theorem interiorWordOcc_elim {id code : Chars} {i len : Nat}
    (h : interiorWordOcc id code i len = true) :
    ∃ p, i + 1 ≤ p ∧ p + id.length + 1 ≤ i + len ∧ matchesAt id code p = true := by
  unfold interiorWordOcc at h
  rw [List.any_eq_true] at h
  rcases h with ⟨p, hp, hcond⟩
  simp only [Bool.and_eq_true, decide_eq_true_eq] at hcond
  exact ⟨p, hcond.1.1, hcond.1.2, hcond.2⟩

/-- Counterexample to claim C10 as stated: in a file whose two distinct
matched import statements both bind exactly the identifier `$` (each match's
clause is `$`), the usage check of each statement finds no whole-word
occurrence inside the other statement — `$` is not a `\w` character and its
neighbours are spaces and quotes, so the `\b`-delimited pattern for `$` can
never match there — and the detector reports `$` unused once per statement. -/
theorem claim10_dollar_unused_cex :
    (⟨0, 17, ['$']⟩ : ImportMatch) ∈ importMatches false dollarCode ∧
    (⟨18, 17, ['$']⟩ : ImportMatch) ∈ importMatches false dollarCode ∧
    (⟨0, 17, ['$']⟩ : ImportMatch) ≠ ⟨18, 17, ['$']⟩ ∧
    detectUnusedCore false dollarCode = [['$'], ['$']] ∧
    String.mk ['$'] ∈ detectUnusedImports (String.mk dollarCode) :=
  ⟨by decide, by decide, by decide, by decide, by decide⟩

/-- C10 as amended: the usage scan of the unused-import check removes only the span of
the matched import statement itself (replacing it by a newline) and keeps all
other text, in particular the text of other import statements.  Hence an identifier
with a word-bounded occurrence strictly inside each of two distinct matches of
the exec loop — true of every `\w`-identifier bound by two import statements,
though not of ones made of non-`\w` characters such as `$` — is never
reported unused by the shared detector core, and so by neither
`detectUnusedImports` nor `detectUnusedTypeScriptImports`. -/
theorem claim10_duplicate_import_not_unused (ts : Bool) (code id : Chars)
    (m1 m2 : ImportMatch) (hid : 1 ≤ id.length)
    (h1 : m1 ∈ importMatches ts code) (h2 : m2 ∈ importMatches ts code)
    (hne : m1 ≠ m2)
    (ho1 : interiorWordOcc id code m1.index m1.len = true)
    (ho2 : interiorWordOcc id code m2.index m2.len = true) :
    id ∉ detectUnusedCore ts code ∧
      String.mk id ∉ (detectUnusedCore ts code).map String.mk := by
  have hmain : id ∉ detectUnusedCore ts code := by
    intro hmem
    rcases List.mem_flatMap.mp hmem with ⟨m, hmMem, hPush⟩
    have hguard := processMatch_guard ts code m id hPush
    rcases interiorWordOcc_elim ho1 with ⟨p1, hp1a, hp1b, hp1m⟩
    rcases interiorWordOcc_elim ho2 with ⟨p2, hp2a, hp2b, hp2m⟩
    have htrue : isUsed code id m.index m.len = true := by
      by_cases hm1 : m = m1
      · subst hm1
        rcases importMatches_disjoint ts code m m2 h1 h2 hne with hd | hd
        · exact isUsed_outside code id m.index m.len p2 hid (by omega) hp2m
            (Or.inr (by omega))
        · exact isUsed_outside code id m.index m.len p2 hid (by omega) hp2m
            (Or.inl (by omega))
      · rcases importMatches_disjoint ts code m m1 hmMem h1 hm1 with hd | hd
        · exact isUsed_outside code id m.index m.len p1 hid (by omega) hp1m
            (Or.inr (by omega))
        · exact isUsed_outside code id m.index m.len p1 hid (by omega) hp1m
            (Or.inl (by omega))
    rw [hguard] at htrue
    exact Bool.noConfusion htrue
  refine ⟨hmain, ?_⟩
  intro hmem
  rcases List.mem_map.mp hmem with ⟨y, hy, heq⟩
  have hy2 : y = id := congrArg String.data heq
  exact hmain (hy2 ▸ hy)

/-- Witness for the C10 theorem: a file whose two import statements both bind
`join`, which is used nowhere else; the detector core reports nothing. -/
theorem claim10_duplicate_import_not_unused_witness :
    ((⟨0, 32, ['{', ' ', 'j', 'o', 'i', 'n', ' ', '}']⟩ : ImportMatch) ∈
        importMatches false dupImportCode ∧
      (⟨33, 32, ['{', ' ', 'j', 'o', 'i', 'n', ' ', '}']⟩ : ImportMatch) ∈
        importMatches false dupImportCode ∧
      interiorWordOcc joinChars dupImportCode 0 32 = true ∧
      interiorWordOcc joinChars dupImportCode 33 32 = true) ∧
    joinChars ∉ detectUnusedCore false dupImportCode :=
  ⟨⟨by decide, by decide, by decide, by decide⟩,
    (claim10_duplicate_import_not_unused false dupImportCode joinChars
      ⟨0, 32, ['{', ' ', 'j', 'o', 'i', 'n', ' ', '}']⟩
      ⟨33, 32, ['{', ' ', 'j', 'o', 'i', 'n', ' ', '}']⟩
      (by decide) (by decide) (by decide) (by decide) (by decide) (by decide)).1⟩

end SweepstacX
